import Mathlib

set_option maxHeartbeats 1000000

/-!
Verification of the event-driven simulation core of the opendc autoscaling
prototype, a discrete-event simulator with a central queue, site-statistics
index, allocation policies and a resource manager.  All definitions are
shallow embeddings of the Python sources under src/.
-/

namespace OpenDC

/-! ## Events and the event priority queue (src/core/SimCore.py)

An `Event` holds `ts_arrival`, `src`, `dest` and `params`; the params
dictionary always carries an integer event-type priority under the key
`type` together with further event-specific payload, which we abstract as
a single `ptag` field.  Python equality (`Event.__eq__`) compares the whole
attribute dictionary; `Event.__cmp__` compares only the type priority and
returns 1 when the own type is larger and -1 otherwise, so it never
returns 0.  Under Python 2 fallback semantics `a < b` therefore holds iff
`a.ptype ≤ b.ptype`, and the `sortedcontainers.SortedList.add` bisection
consequently inserts a fresh event immediately before the first stored
event of equal or larger type priority. -/

structure Event where
  ts : Nat
  src : Nat
  dest : Nat
  ptype : Nat
  ptag : Nat
deriving DecidableEq, Repr

/-- Positions a new event inside the per-timestamp bucket the way
`SortedList.add` does for `Event.__cmp__`: before the first stored event
whose type priority is at least the new one. -/
def bucketInsert (e : Event) : List Event → List Event
  | [] => [e]
  | x :: xs => if e.ptype ≤ x.ptype then e :: x :: xs else x :: bucketInsert e xs

/-- `EventQueue` state: the sorted timestamp list together with the
per-timestamp event dict is modelled as an association list of buckets kept
sorted by timestamp, plus the three statistics counters. -/
structure EventQueue where
  buckets : List (Nat × List Event)
  countIn : Nat
  countOut : Nat
  countPeek : Nat
deriving DecidableEq, Repr

def emptyQueue : EventQueue := ⟨[], 0, 0, 0⟩

/-- `EventQueue.__len__` is `count_events_in - count_events_out`. -/
def EventQueue.len (q : EventQueue) : Nat := q.countIn - q.countOut

/-- Bucket-level part of `EventQueue.enqueue`: create the timestamp bucket
if missing, then add the event unless it equals the tail of the bucket
(the duplicate check `self.events[ts][-1] != event`).  The boolean records
whether `count_events_in` is incremented. -/
def enqueueBuckets (e : Event) : List (Nat × List Event) → List (Nat × List Event) × Bool
  | [] => ([(e.ts, [e])], true)
  | (ts, l) :: rest =>
    if e.ts < ts then ((e.ts, [e]) :: (ts, l) :: rest, true)
    else if e.ts = ts then
      if l.getLast? = some e then ((ts, l) :: rest, false)
      else ((ts, bucketInsert e l) :: rest, true)
    else
      let p := enqueueBuckets e rest
      ((ts, l) :: p.1, p.2)

def enqueue (q : EventQueue) (e : Event) : EventQueue :=
  let p := enqueueBuckets e q.buckets
  { q with buckets := p.1, countIn := q.countIn + (if p.2 then 1 else 0) }

/-- `EventQueue.dequeue`: raise `IndexError` (modelled as `none`) when the
length counter is zero, otherwise pop the head of the earliest bucket and
drop the bucket when it empties.  The fall-through arms are unreachable for
well-formed queues. -/
def dequeue (q : EventQueue) : Option Event × EventQueue :=
  if q.len = 0 then (none, q)
  else
    match q.buckets with
    | [] => (none, q)
    | (_, []) :: _ => (none, q)
    | (ts, e :: es) :: rest =>
      (some e,
        { q with
          buckets := if es = [] then rest else (ts, es) :: rest,
          countOut := q.countOut + 1 })

/-- `EventQueue.peek` increments `count_events_peek` before checking for
emptiness, then raises (`none`) on an empty queue or returns the head of
the earliest bucket without removing it. -/
def peek (q : EventQueue) : Option Event × EventQueue :=
  if q.len = 0 then (none, { q with countPeek := q.countPeek + 1 })
  else
    match q.buckets with
    | (_, e :: _) :: _ => (some e, { q with countPeek := q.countPeek + 1 })
    | _ => (none, { q with countPeek := q.countPeek + 1 })

def allEvents (q : EventQueue) : List Event := q.buckets.flatMap (fun p => p.2)

/-- Well-formedness of a queue state: buckets strictly sorted by timestamp,
no empty bucket, events stored under their own timestamp, buckets sorted by
type priority, and the length counters accounting for the stored events. -/
def WFQ (q : EventQueue) : Prop :=
  q.buckets.Pairwise (fun a b => a.1 < b.1) ∧
  (∀ p ∈ q.buckets, p.2 ≠ []) ∧
  (∀ p ∈ q.buckets, ∀ e ∈ p.2, e.ts = p.1) ∧
  (∀ p ∈ q.buckets, p.2.Pairwise (fun a b => a.ptype ≤ b.ptype)) ∧
  q.countIn = q.countOut + (allEvents q).length

instance (q : EventQueue) : Decidable (WFQ q) := by
  unfold WFQ; infer_instance

/-! ## The site-statistics index of the central queue (src/core/CentralQueue.py)

Each site stat is the 5-tuple `(free_resources, site_name, site_id,
is_leased_instance, expiration_ts)`.  The central queue keeps the stats in
insertion order (`_site_stats`), a second list of `(index, stat)` pairs
sorted by the key `(free_resources, index)` (`_site_stats_sorted`,
a `SortedListWithKey`), a dictionary `_site_id_index_map` from site id to
insertion index, and the running sum `total_available_resources`. -/

structure SiteStat where
  free : Int
  name : Nat
  sid : Nat
  leased : Bool
  expiration : Int
deriving DecidableEq, Repr

structure CQIndex where
  stats : List SiteStat
  idx : Nat → Option Nat
  sorted : List (Nat × SiteStat)
  total : Int

def emptyCQ : CQIndex := ⟨[], fun _ => none, [], 0⟩

/-- Sort key of `_site_stats_sorted`: `(free_resources, site_index)`. -/
def statKey (p : Nat × SiteStat) : Int × Nat := (p.2.free, p.1)

def keyLtb (a b : Int × Nat) : Bool := a.1 < b.1 || (a.1 = b.1 && a.2 < b.2)

/-- Strict lexicographic order on the sort keys, used to state that the
sorted index is sorted. -/
def keyLtP (a b : Int × Nat) : Prop := a.1 < b.1 ∨ (a.1 = b.1 ∧ a.2 < b.2)

instance (a b : Int × Nat) : Decidable (keyLtP a b) := by
  unfold keyLtP; infer_instance

/-- Insertion into the sorted list, after all entries of smaller-or-equal
key, as `SortedListWithKey.add` does; the keys are distinct in all
well-formed states, so the tie order is immaterial there. -/
def sortedAdd (p : Nat × SiteStat) : List (Nat × SiteStat) → List (Nat × SiteStat)
  | [] => [p]
  | x :: xs => if keyLtb (statKey p) (statKey x) then p :: x :: xs else x :: sortedAdd p xs

/-- `SortedListWithKey.remove(value)`: drop the stored entry equal to the
value.  The Python call raises `ValueError` when the value is absent, which
never happens in the states the central queue reaches; the embedding then
leaves the list unchanged. -/
def sortedRemove (p : Nat × SiteStat) : List (Nat × SiteStat) → List (Nat × SiteStat)
  | [] => []
  | x :: xs => if x = p then xs else x :: sortedRemove p xs

/-- The view of a `Site` that `add_site_stats` reads: `free_resources`,
the queued tasks (only their cpus matter), name, id, lease data. -/
structure SiteLite where
  name : Nat
  sid : Nat
  freeResources : Int
  queuedCpus : List Int
  leased : Bool
  expiration : Int

/-- The site stat recorded by `add_site_stats`: the free resources less the
cpus of the queued tasks, together with name, id and lease data. -/
def newSiteStat (site : SiteLite) : SiteStat :=
  ⟨site.freeResources - site.queuedCpus.sum, site.name, site.sid, site.leased, site.expiration⟩

/-- `CentralQueue.add_site_stats`. -/
def addSiteStats (cq : CQIndex) (site : SiteLite) : CQIndex :=
  { stats := cq.stats ++ [newSiteStat site]
    idx := fun i => if i = site.sid then some cq.stats.length else cq.idx i
    sorted := sortedAdd (cq.stats.length, newSiteStat site) cq.sorted
    total := cq.total + (site.freeResources - site.queuedCpus.sum) }

/-- The reindexing loop at the end of `CentralQueue.remove_site_stats`: for
every stat after the removed position, update the id map to the shifted
index and move the sorted entry from the old index to the new one. -/
def reindexLoop (startIdx : Nat) (tail : List SiteStat) (m : Nat → Option Nat)
    (sorted : List (Nat × SiteStat)) : (Nat → Option Nat) × List (Nat × SiteStat) :=
  match tail with
  | [] => (m, sorted)
  | st :: rest =>
    reindexLoop (startIdx + 1) rest (fun j => if j = st.sid then some startIdx else m j)
      (sortedAdd (startIdx, st) (sortedRemove (startIdx + 1, st) sorted))

/-- `CentralQueue.remove_site_stats`.  A missing site id returns the state
unchanged.  `none` models the `IndexError` of `self._site_stats[site_index]`
when the id map points outside the stat list, which cannot happen in a
well-formed state. -/
def removeSiteStats (cq : CQIndex) (sid : Nat) : Option CQIndex :=
  match cq.idx sid with
  | none => some cq
  | some i =>
    match cq.stats[i]? with
    | none => none
    | some st =>
      some { stats := cq.stats.take i ++ cq.stats.drop (i + 1)
             idx := (reindexLoop i (cq.stats.drop (i + 1))
               (fun j => if j = sid then none else cq.idx j)
               (sortedRemove (i, st) cq.sorted)).1
             sorted := (reindexLoop i (cq.stats.drop (i + 1))
               (fun j => if j = sid then none else cq.idx j)
               (sortedRemove (i, st) cq.sorted)).2
             total := cq.total - st.free }

/-- `CentralQueue.set_site_free_resources`.  Note that the source updates
the stat list and the sorted list but leaves `total_available_resources`
untouched; the total is only recomputed by `monitor_sites`. -/
def setSiteFreeResources (cq : CQIndex) (i : Nat) (newFree : Int) : Option CQIndex :=
  match cq.stats[i]? with
  | none => none
  | some last =>
    if last.free = newFree then some cq
    else
      some { cq with
             stats := cq.stats.set i { last with free := newFree }
             sorted := sortedAdd (i, { last with free := newFree })
               (sortedRemove (i, last) cq.sorted) }

/-- The two orderings of the site-stat index agree on contents: the sorted
list is a permutation of the insertion-ordered list paired with its
indices. -/
def agree (cq : CQIndex) : Prop := cq.sorted.Perm cq.stats.enum

/-- Consistency of `_site_id_index_map` with `_site_stats`. -/
def mapOK (cq : CQIndex) : Prop :=
  (∀ p ∈ cq.stats.enum, cq.idx p.2.sid = some p.1) ∧
  (∀ id k, cq.idx id = some k → ∃ st, (k, st) ∈ cq.stats.enum ∧ st.sid = id)

/-- `total_available_resources` equals the sum of the indexed free
resources. -/
def totalOK (cq : CQIndex) : Prop := cq.total = (cq.stats.map SiteStat.free).sum

instance (cq : CQIndex) : Decidable (agree cq) := by
  unfold agree; infer_instance

instance (cq : CQIndex) : Decidable (totalOK cq) := by
  unfold totalOK; infer_instance

/-! ## Allocation policies (src/schedulers)

Both policies walk the ready tasks; a task whose cpus exceed
`total_available_resources` is skipped (and the walk stops when the total
is zero), a leased site whose lease expires before the task could finish
is skipped, and otherwise the policy picks a site from the sorted index. -/

structure TaskLite where
  cpus : Int
  runtime : Int
deriving DecidableEq, Repr

/-- Skip condition for leased instances: the lease is finite and expires
before `ts_now + task.runtime`. -/
def skipLeased (tsNow runtime : Int) (st : SiteStat) : Bool :=
  st.leased && decide (0 < st.expiration) && decide (st.expiration < tsNow + runtime)

/-- Entries the `bisect_left` probe `(task.cpus, -1)` of the best-fit
scheduler skips over: key strictly below the probe, which for the stored
non-negative indices means `free_resources < task.cpus`. -/
def tooSmall (task : TaskLite) (p : Nat × SiteStat) : Bool :=
  decide (p.2.free < task.cpus)

/-- Sites the lease check does not skip. -/
def eligible (tsNow : Int) (task : TaskLite) (p : Nat × SiteStat) : Bool :=
  !skipLeased tsNow task.runtime p.2

/-- Site selection of `BestFitScheduler.try_schedule_tasks` for one task:
`bisect_left` on the ascending `(free, index)` key with probe
`(task.cpus, -1)` — on the sorted index this drops exactly the entries with
`free_resources < task.cpus` — followed by the first site that is not
skipped by the lease check. -/
def bestFitSelect (tsNow : Int) (task : TaskLite) (sorted : List (Nat × SiteStat)) :
    Option (Nat × SiteStat) :=
  (sorted.dropWhile (tooSmall task)).find? (eligible tsNow task)

/-- Per-task step of `BestFitScheduler.try_schedule_tasks` including the
guard on the total available resources. -/
def bestFitChoose (tsNow : Int) (task : TaskLite) (cq : CQIndex) : Option (Nat × SiteStat) :=
  if cq.total < task.cpus then none
  else bestFitSelect tsNow task cq.sorted

inductive PyError
  | attributeError
deriving DecidableEq, Repr

/-- Inner loop of `WorstFitScheduler.try_schedule_tasks` over
`reversed(sorted_sites)`: stop at the first site the task does not fit,
skip expiring leased sites, otherwise the site is selected. -/
def worstFitFindSite (tsNow : Int) (task : TaskLite) :
    List (Nat × SiteStat) → Option (Nat × SiteStat)
  | [] => none
  | p :: rest =>
    if p.2.free < task.cpus then none
    else if skipLeased tsNow task.runtime p.2 then worstFitFindSite tsNow task rest
    else some p

structure WFSchedState where
  readyTasks : List TaskLite
  cq : CQIndex
  submittedCount : Nat

/-- Task loop of `WorstFitScheduler.try_schedule_tasks`.  When a site is
selected the source increments `submitted_tasks_count` and then evaluates
`self.central_queue.ready_tasks`; the refactored `CentralQueue` defines no
attribute `ready_tasks` (its ready queue is the private `_ready_tasks`,
removed through `remove_task_to_schedule`), so the placement raises
`AttributeError`, modelled as the error result. -/
def worstFitGo (tsNow : Int) : List TaskLite → WFSchedState → Except PyError WFSchedState
  | [], s => .ok s
  | t :: ts, s =>
    if s.cq.total < t.cpus then
      if s.cq.total = 0 then .ok s
      else worstFitGo tsNow ts s
    else
      match worstFitFindSite tsNow t s.cq.sorted.reverse with
      | none => worstFitGo tsNow ts s
      | some _ => .error .attributeError

/-- `WorstFitScheduler.try_schedule_tasks` iterates over a copy of the
ready queue. -/
def worstFitTrySchedule (tsNow : Int) (s : WFSchedState) : Except PyError WFSchedState :=
  worstFitGo tsNow s.readyTasks s

/-! ## System monitor stop condition (src/core/SimMonitors.py)

`SystemMonitor.getNTasksToCome` evaluates
`len(self.sim.central_queue.task_queue) + len(self.sim.central_queue.ready_tasks)`.
The refactored `CentralQueue` defines neither a `task_queue` nor a
`ready_tasks` attribute (its queues are the private
`_tasks_pending_dependencies`, `_tasks_submitted_after_now` and
`_ready_tasks`), so the attribute lookup raises `AttributeError` before any
count is computed, and the stop check of `SystemMonitor.evtMonitor` never
reaches the assignment of `forced_stop`. -/

structure CQTasksView where
  pendingDependencies : List TaskLite
  submittedAfterNow : List TaskLite
  readyTasks : List TaskLite
  submittedTasksCount : Nat
  finishedTasksCount : Nat

def getNTasksToCome (_cq : CQTasksView) : Except PyError Nat :=
  .error .attributeError

/-- The tail of `SystemMonitor.evtMonitor`: compute `getNTasksToCome` and
set `forced_stop` when no tasks are to come and the submitted and finished
counters agree.  The result is the new value of `forced_stop`. -/
def evtMonitorStopCheck (cq : CQTasksView) (forcedStop : Bool) : Except PyError Bool :=
  match getNTasksToCome cq with
  | .error e => .error e
  | .ok n =>
    .ok (if n = 0 && cq.submittedTasksCount == cq.finishedTasksCount then true else forcedStop)

/-! ## Site execution (src/core/Site.py, src/core/Task.py)

A site holds a fixed resource count, a resource speed, a FCFS local task
queue and the dictionary of running tasks keyed by the monotonically
increasing started-task counter.  Tasks move through their lifecycle with
`queue_at_site`, `run`, `interrupt` and `stop`. -/

inductive TaskStatus
  | submitted
  | queued
  | running
  | finished
deriving DecidableEq, Repr

structure STask where
  tid : Nat
  cpus : Nat
  runtime : Nat
  status : TaskStatus
  runningSite : Int
  tsStart : Int
  tsEnd : Int
deriving DecidableEq, Repr

def STask.queueAtSite (t : STask) (site : Int) : STask :=
  { t with status := .queued, runningSite := site }

def STask.runAt (t : STask) (tsStart tsEnd : Int) : STask :=
  { t with status := .running, tsStart := tsStart, tsEnd := tsEnd }

def STask.interrupt (t : STask) : STask :=
  { t with status := .submitted, runningSite := -1, tsStart := -1, tsEnd := -1 }

def STask.stopTask (t : STask) : STask := { t with status := .finished }

/-- The run-time computation of `Site.reschedule`:
`iRunTime = int(runtime / resource_speed)` followed by an increment when
`runtime > iRunTime * resource_speed`. -/
def runTicks (runtime speed : Nat) : Nat :=
  let i := runtime / speed
  if i * speed < runtime then i + 1 else i

structure SiteState where
  sid : Int
  resources : Nat
  speed : Nat
  used : Int
  taskQueue : List STask
  running : List (Nat × STask)
  counter : Nat
  statusRunning : Bool
deriving DecidableEq, Repr

def initSite (sid : Int) (resources speed : Nat) : SiteState :=
  ⟨sid, resources, speed, 0, [], [], 0, true⟩

/-- `Site.add_task`: mark the task queued at this site and append it to the
local queue (the handler also enqueues a RESCHEDULE event, which is a
separate step of the machine). -/
def addTaskStep (s : SiteState) (t : STask) : SiteState :=
  { s with taskQueue := s.taskQueue ++ [t.queueAtSite s.sid] }

/-- Body of the while loop of `Site.reschedule` for one started task:
increment the started counter, reserve the cpus, and register the running
task under the counter with `ts_start = ts_now` and
`ts_end = ts_now + runTicks`. -/
def rescheduleStep (ts : Int) (s : SiteState) (t : STask) : SiteState :=
  { s with
    used := s.used + (t.cpus : Int)
    counter := s.counter + 1
    running := s.running ++ [(s.counter + 1, t.runAt ts (ts + (runTicks t.runtime s.speed : Int)))] }

def rescheduleGo (ts : Int) : List STask → SiteState → SiteState
  | [], s => { s with taskQueue := [] }
  | t :: rest, s =>
    if (t.cpus : Int) ≤ (s.resources : Int) - s.used then
      rescheduleGo ts rest (rescheduleStep ts s t)
    else { s with taskQueue := t :: rest }

/-- `Site.reschedule`: start queued tasks FCFS while the head fits into the
free resources. -/
def reschedule (ts : Int) (s : SiteState) : SiteState := rescheduleGo ts s.taskQueue s

/-- `Site.finish_task` for the running-task index `i`: stop the task,
release its resources and delete the registry entry. -/
def finishTaskStep (s : SiteState) (i : Nat) (t : STask) : SiteState :=
  { s with
    used := s.used - (t.cpus : Int)
    running := (s.running.map (fun p => if p.1 = i then (p.1, p.2.stopTask) else p)).eraseP
      (fun p => p.1 == i) }

/-- `Site.shutdown`: set the status to SHUTDOWN and, unless idle, interrupt
every running and queued task and zero the used resources.  The interrupted
tasks are handed back to the central queue but the source does not clear
the local collections. -/
def shutdownStep (s : SiteState) : SiteState :=
  if s.running.isEmpty && s.taskQueue.isEmpty then { s with statusRunning := false }
  else
    { s with
      statusRunning := false
      running := s.running.map (fun p => (p.1, p.2.interrupt))
      taskQueue := s.taskQueue.map STask.interrupt
      used := 0 }

/-- One transition of a site: the event handlers only fire while the site
status is RUNNING (`Site.dispatch` drops events after shutdown), while the
resource manager may call `shutdown` at any time. -/
inductive SiteStep : SiteState → SiteState → Prop
  | addTask (t : STask) (s : SiteState) (h : s.statusRunning = true) :
      SiteStep s (addTaskStep s t)
  | resched (ts : Int) (s : SiteState) (h : s.statusRunning = true) :
      SiteStep s (reschedule ts s)
  | finish (i : Nat) (t : STask) (s : SiteState) (h : s.statusRunning = true)
      (hmem : (i, t) ∈ s.running) : SiteStep s (finishTaskStep s i t)
  | shutdown (s : SiteState) : SiteStep s (shutdownStep s)

inductive ReachableSite : SiteState → Prop
  | init (sid : Int) (resources speed : Nat) : ReachableSite (initSite sid resources speed)
  | step (s s' : SiteState) (h : ReachableSite s) (hs : SiteStep s s') : ReachableSite s'

/-! ## Best-effort subset-sum provisioning
(src/utils/SimUtils.py `subset_closest_to_sum`,
src/core/SimResourceManager.py `start_up_best_effort`)

`start_up_best_effort(capacity, fix_capacity=False)` calls
`subset_closest_to_sum(available_sites, capacity, key=NProcs)` with the
default arguments `with_duplicates=False` and `gt=True` and provisions
every chosen entry.  The embedding below specializes the utility to these
defaults, with the items given directly by their NProcs values.  The dict
`reachable` of subset sums below `target` is modelled as an association
list kept sorted by descending sum, matching the iteration order
`sorted(reachable.keys(), reverse=True)`; each entry carries its witness
subset.  An exact hit returns immediately (modelled as the error case of
`Except`); sums above the target only update the tracked closest greater
sum because `gt=True`. -/

abbrev Reach := List (Nat × List Nat)

/-- Dictionary assignment `reachable[result] = witness`, keeping the keys
sorted in descending order. -/
def reachInsert (s : Nat) (w : List Nat) : Reach → Reach
  | [] => [(s, w)]
  | (s', w') :: rest =>
    if s = s' then (s, w) :: rest
    else if s' < s then (s, w) :: (s', w') :: rest
    else (s', w') :: reachInsert s w rest

structure DPState where
  reach : Reach
  closest : Option (Nat × List Nat)
deriving Repr

/-- Tracking of `closest_sum`/`closest_lst` for sums above the target. -/
def updateClosest (result : Nat) (w : List Nat) :
    Option (Nat × List Nat) → Option (Nat × List Nat)
  | none => some (result, w)
  | some (cs, cw) => if result < cs then some (result, w) else some (cs, cw)

/-- Inner loop of `_subset_with_sum` over the snapshot of reachable sums in
descending order, for one item. -/
def processEntries (target item : Nat) : Reach → DPState → Except (List Nat) DPState
  | [], st => .ok st
  | (n, w) :: rest, st =>
    if target < n + item then
      processEntries target item rest
        { st with closest := updateClosest (n + item) (w ++ [item]) st.closest }
    else if n + item = target then .error (w ++ [item])
    else
      processEntries target item rest
        { st with reach := reachInsert (n + item) (w ++ [item]) st.reach }

def processItem (target : Nat) (st : DPState) (item : Nat) : Except (List Nat) DPState :=
  processEntries target item st.reach st

def runItems (target : Nat) : List Nat → DPState → Except (List Nat) DPState
  | [], st => .ok st
  | i :: is, st =>
    match processItem target st i with
    | .error w => .error w
    | .ok st' => runItems target is st'

def initDP : DPState := ⟨[(0, [])], none⟩

/-- `subset_closest_to_sum(lst, target)` with the default arguments: when
the total sum does not exceed the target the whole list is returned,
otherwise the dynamic program runs; an exact subset is returned as soon as
it is found, and otherwise the tracked subset with the closest sum above
the target (an empty list when none was seen). -/
def subsetClosestToSum (lst : List Nat) (target : Nat) : List Nat :=
  if lst.sum ≤ target then lst
  else
    match runItems target lst initDP with
    | .error w => w
    | .ok st =>
      match st.closest with
      | some (_, w) => w
      | none => []

/-- `ResourceManager.start_up_best_effort(capacity, fix_capacity=False)`
restricted to its outcome: the multiset of NProcs values provisioned from
the unprovisioned part of the catalog.  When every site is already
provisioned the call returns before selecting anything. -/
def startUpBestEffort (catalog : List Nat) (capacity : Nat) : List Nat :=
  if catalog = [] then []
  else subsetClosestToSum catalog capacity

/-! ## Critical path length (src/utils/SimUtils.py)

`calculate_critical_path_length` and `calculate_critical_path_length2`
process the tasks level by level in topological order.  For each task the
finish time is `max(latest parent finish, ts_submit) + runtime`; the
length is the largest finish time minus the smallest submit time, and the
second function also tracks per-task path lengths through the critical
parent. -/

structure WTask where
  tid : Nat
  tsSubmit : Nat
  runtime : Nat
  deps : List Nat
deriving DecidableEq, Repr

def depsMet (emitted : List Nat) (t : WTask) : Bool :=
  t.deps.all (fun d => emitted.contains d)

/-- Levels of `toposort.toposort` over the dependency map: each level holds
the tasks whose dependencies were all emitted by earlier levels; a level
that would be empty while tasks remain signals a cycle (`none`). -/
def topoLevels : Nat → List Nat → List WTask → Option (List (List WTask))
  | _, _, [] => some []
  | 0, _, _ :: _ => none
  | fuel + 1, emitted, t :: ts =>
    let level := (t :: ts).filter (depsMet emitted)
    if level.isEmpty then none
    else
      (topoLevels fuel (emitted ++ level.map WTask.tid)
        ((t :: ts).filter (fun u => !(depsMet emitted u)))).map (level :: ·)

/-- Finish-time recurrence of `calculate_critical_path_length` for one
task, appending to the insertion-ordered finish-time table. -/
def finishFold (fts : List (Nat × Nat)) (t : WTask) : List (Nat × Nat) :=
  let criticalParent :=
    if t.deps.isEmpty then 0
    else (t.deps.map (fun d => (fts.lookup d).getD 0)).foldl max 0
  fts ++ [(t.tid, max criticalParent t.tsSubmit + t.runtime)]

def minSubmit (tasks : List WTask) : Nat :=
  match tasks.map WTask.tsSubmit with
  | [] => 0
  | x :: xs => xs.foldl min x

def calcCriticalPathLength (tasks : List WTask) : Option Nat :=
  (topoLevels tasks.length [] tasks).map (fun levels =>
    let fts := (levels.flatMap id).foldl finishFold []
    ((fts.map Prod.snd).foldl max 0) - minSubmit tasks)

/-- `get_id_from_finish_time`: the id stored first in the finish-time table
with the given finish value. -/
def idOfFinish (fts : List (Nat × Nat)) (v : Nat) : Nat :=
  ((fts.find? (fun p => p.2 = v)).map Prod.fst).getD 0

/-- Joint finish-time and path-length recurrence of
`calculate_critical_path_length2`. -/
def finishFold2 (acc : List (Nat × Nat) × List (Nat × Nat)) (t : WTask) :
    List (Nat × Nat) × List (Nat × Nat) :=
  let fts := acc.1
  let pls := acc.2
  if t.deps.isEmpty then
    (fts ++ [(t.tid, max 0 t.tsSubmit + t.runtime)], pls ++ [(t.tid, 1)])
  else
    let cpf := (t.deps.map (fun d => (fts.lookup d).getD 0)).foldl max 0
    let pl := ((pls.lookup (idOfFinish fts cpf)).getD 0) + 1
    (fts ++ [(t.tid, max cpf t.tsSubmit + t.runtime)], pls ++ [(t.tid, pl)])

def calcCriticalPathLength2 (tasks : List WTask) : Option (Nat × Nat) :=
  (topoLevels tasks.length [] tasks).map (fun levels =>
    let acc := (levels.flatMap id).foldl finishFold2 ([], [])
    let maxF := (acc.1.map Prod.snd).foldl max 0
    (maxF - minSubmit tasks, (acc.2.lookup (idOfFinish acc.1 maxF)).getD 0))

/-! ## Concrete instances used by witnesses and counterexamples -/

/-- A chain of two unit-runtime tasks, task 1 depending on task 0, with
given submit times. -/
def chainTasks (s0 s1 : Nat) : List WTask := [⟨0, s0, 1, []⟩, ⟨1, s1, 1, [0]⟩]

def demoEvent1 : Event := ⟨0, 0, 0, 5, 1⟩

def demoEvent2 : Event := ⟨0, 0, 0, 5, 2⟩

def demoQueue : EventQueue := enqueue emptyQueue demoEvent1

def demoStat : SiteStat := ⟨5, 0, 7, false, 0⟩

def demoCQ : CQIndex :=
  ⟨[demoStat], fun j => if j = 7 then some 0 else none, [(0, demoStat)], 5⟩

def demoSiteView : SiteLite := ⟨0, 7, 5, [], false, 0⟩

def demoStatSmall : SiteStat := ⟨3, 1, 8, false, 0⟩

/-- A two-site index: site 8 with 3 free resources at insertion index 0 and
site 7 with 5 free resources at insertion index 1. -/
def demoCQ2 : CQIndex :=
  ⟨[demoStatSmall, demoStat],
   fun j => if j = 8 then some 0 else if j = 7 then some 1 else none,
   [(0, demoStatSmall), (1, demoStat)], 8⟩

def demoView : CQTasksView := ⟨[], [], [], 3, 3⟩

/-- A freshly submitted task with 2 cpus and runtime 5. -/
def demoTask : STask := ⟨1, 2, 5, .submitted, -1, -1, -1⟩

/-- A site with 4 resources and speed 2 that received `demoTask`. -/
def demoSite : SiteState := addTaskStep (initSite 0 4 2) demoTask

/-! ## Invariants of the subset-sum dynamic program

The correctness statement for `subset_closest_to_sum` (with the default
`gt=True`) is phrased through an invariant over the processed prefix `P`
of the item list: every reachable entry is a genuine subset sum of `P`,
every subset sum of `P` below the target is reachable, and the tracked
closest entry is the least subset sum of `P` above the target. -/

/-- Every entry of the reachable dictionary is witnessed by a sub-multiset
of the processed prefix whose sum is the key. -/
def ReachSound (P : List Nat) (reach : Reach) : Prop :=
  ∀ n w, (n, w) ∈ reach → w.Sublist P ∧ w.sum = n

/-- Every subset sum of the processed prefix that is below the target has
an entry in the reachable dictionary. -/
def ReachComplete (target : Nat) (P : List Nat) (reach : Reach) : Prop :=
  ∀ sub : List Nat, sub.Sublist P → sub.sum < target → ∃ w, (sub.sum, w) ∈ reach

/-- The tracked closest pair is a subset sum of the processed prefix above
the target and is minimal among those; when no pair is tracked no subset
sum exceeds the target. -/
def ClosestInv (target : Nat) (P : List Nat) (o : Option (Nat × List Nat)) : Prop :=
  (o = none → ∀ sub : List Nat, sub.Sublist P → sub.sum ≤ target) ∧
  (∀ cs cw, o = some (cs, cw) → cw.Sublist P ∧ cw.sum = cs ∧ target < cs ∧
      ∀ sub : List Nat, sub.Sublist P → target < sub.sum → cs ≤ sub.sum)

/-- No nonempty sub-multiset of the processed prefix sums exactly to the
target (otherwise the dynamic program would have returned it early). -/
def NoExact (target : Nat) (P : List Nat) : Prop :=
  ∀ sub : List Nat, sub.Sublist P → sub ≠ [] → sub.sum ≠ target

/-- Full invariant of the dynamic program after processing the prefix `P`
of the item list. -/
def DPInv (target : Nat) (P : List Nat) (st : DPState) : Prop :=
  ReachSound P st.reach ∧ ReachComplete target P st.reach ∧
  (∃ w, (0, w) ∈ st.reach) ∧ ClosestInv target P st.closest ∧ NoExact target P

/-! # Theorems -/

theorem bucketInsert_placement (e : Event) (l : List Event)
    (hs : l.Pairwise (fun a b => a.ptype ≤ b.ptype)) :
    ∃ l₁ l₂, bucketInsert e l = l₁ ++ e :: l₂ ∧ l = l₁ ++ l₂ ∧
      (∀ x ∈ l₁, x.ptype < e.ptype) ∧ (∀ x ∈ l₂, e.ptype ≤ x.ptype) := by
  induction l with
  | nil => exact ⟨[], [], rfl, rfl, by simp, by simp⟩
  | cons x xs ih =>
    rw [List.pairwise_cons] at hs
    by_cases h : e.ptype ≤ x.ptype
    · refine ⟨[], x :: xs, by simp [bucketInsert, h], rfl, by simp, ?_⟩
      intro y hy
      rcases List.mem_cons.mp hy with rfl | hy
      · exact h
      · exact le_trans h (hs.1 y hy)
    · obtain ⟨l₁, l₂, h1, h2, h3, h4⟩ := ih hs.2
      refine ⟨x :: l₁, l₂, by simp [bucketInsert, h, h1], by simp [h2], ?_, h4⟩
      intro y hy
      rcases List.mem_cons.mp hy with rfl | hy
      · exact Nat.lt_of_not_le h
      · exact h3 y hy

theorem enqueueBuckets_dedup (e : Event) (bs : List (Nat × List Event))
    (hs : bs.Pairwise (fun a b => a.1 < b.1)) (l : List Event)
    (hmem : (e.ts, l) ∈ bs) (hlast : l.getLast? = some e) :
    enqueueBuckets e bs = (bs, false) := by
  induction bs with
  | nil => cases hmem
  | cons b rest ih =>
    obtain ⟨ts, bl⟩ := b
    rw [List.pairwise_cons] at hs
    rcases List.mem_cons.mp hmem with heq | hmem
    · obtain ⟨h1, h2⟩ := Prod.mk.injEq .. ▸ heq
      subst h1; subst h2
      simp [enqueueBuckets, hlast]
    · have hlt : ts < e.ts := hs.1 _ hmem
      have h1 : ¬ e.ts < ts := by omega
      have h2 : ¬ e.ts = ts := by omega
      simp [enqueueBuckets, h1, h2, ih hs.2 hmem]

theorem enqueue_dedup (q : EventQueue) (e : Event) (hwf : WFQ q) (l : List Event)
    (hmem : (e.ts, l) ∈ q.buckets) (hlast : l.getLast? = some e) :
    enqueue q e = q := by
  unfold enqueue
  rw [enqueueBuckets_dedup e q.buckets hwf.1 l hmem hlast]
  cases q
  simp

theorem dequeue_minimal (q : EventQueue) (hwf : WFQ q) (e₀ : Event) (q' : EventQueue)
    (hd : dequeue q = (some e₀, q')) :
    ∀ e' ∈ allEvents q, e₀.ts < e'.ts ∨ (e₀.ts = e'.ts ∧ e₀.ptype ≤ e'.ptype) := by
  unfold dequeue at hd
  by_cases hlen : q.len = 0
  · simp [hlen] at hd
  · rw [if_neg hlen] at hd
    rcases hb : q.buckets with _ | ⟨⟨ts, l⟩, rest⟩
    · rw [hb] at hd
      exact absurd hd (by simp)
    · rcases l with _ | ⟨e, es⟩
      · rw [hb] at hd
        exact absurd hd (by simp)
      rw [hb] at hd
      have he : e₀ = e := by
        have h2 := congrArg Prod.fst hd
        simpa using h2.symm
      subst he
      intro e' he'
      have hheadmem : (ts, e₀ :: es) ∈ q.buckets := by
        rw [hb]; exact List.mem_cons_self _ _
      simp only [allEvents, hb, List.flatMap_cons, List.mem_append] at he'
      have hhead := hwf.2.2.1 (ts, e₀ :: es) hheadmem
      have hts0 : e₀.ts = ts := hhead e₀ (List.mem_cons_self _ _)
      rcases he' with he' | he'
      · right
        refine ⟨by rw [hts0, hhead e' he'], ?_⟩
        have hsorted := hwf.2.2.2.1 (ts, e₀ :: es) hheadmem
        rw [List.pairwise_cons] at hsorted
        rcases List.mem_cons.mp he' with rfl | he'
        · exact le_refl _
        · exact hsorted.1 e' he'
      · left
        rw [List.mem_flatMap] at he'
        obtain ⟨p, hp, hep⟩ := he'
        have hpm : p ∈ q.buckets := by
          rw [hb]; exact List.mem_cons_of_mem _ hp
        have hts' : e'.ts = p.1 := hwf.2.2.1 p hpm e' hep
        have hplt : ts < p.1 := by
          have hpw := hwf.1
          rw [hb, List.pairwise_cons] at hpw
          exact hpw.1 p hp
        omega

/-- C1: the event queue is ordered by arrival time first and type priority
second, and an enqueue equal to the tail of its timestamp bucket is
dropped, as claimed; but ties among equal priorities resolve in reverse
insertion order, because the comparison of `Event.__cmp__` never returns 0
and classifies an equally prioritized new event as smaller, so the sorted
bucket places it before the stored ones.  The three conjuncts: any
dequeued event is minimal for the (timestamp, type-priority) order among
the stored events; inserting into a type-sorted bucket places the new
event after the strictly smaller priorities and before all equal or larger
priorities; enqueueing an event equal to the tail of the bucket of its
timestamp leaves the queue unchanged. -/
theorem eventQueue_ordering_C1 (q : EventQueue) (e : Event) (hwf : WFQ q) :
    (∀ e₀ q', dequeue q = (some e₀, q') →
      ∀ e' ∈ allEvents q, e₀.ts < e'.ts ∨ (e₀.ts = e'.ts ∧ e₀.ptype ≤ e'.ptype)) ∧
    (∀ l, l.Pairwise (fun a b => a.ptype ≤ b.ptype) →
      ∃ l₁ l₂, bucketInsert e l = l₁ ++ e :: l₂ ∧ l = l₁ ++ l₂ ∧
        (∀ x ∈ l₁, x.ptype < e.ptype) ∧ (∀ x ∈ l₂, e.ptype ≤ x.ptype)) ∧
    (∀ l, (e.ts, l) ∈ q.buckets → l.getLast? = some e → enqueue q e = q) := by
  refine ⟨fun e₀ q' hd => dequeue_minimal q hwf e₀ q' hd,
    fun l hs => bucketInsert_placement e l hs,
    fun l hmem hlast => enqueue_dedup q e hwf l hmem hlast⟩

/-- C1 counterexample: two events with equal arrival time and equal type
priority but different payloads are dequeued in reverse insertion order;
the claim requires the first enqueued event to come out first, but the
second one does. -/
theorem eventQueue_fifo_cex :
    (dequeue (enqueue (enqueue emptyQueue demoEvent1) demoEvent2)).1 = some demoEvent2 ∧
    demoEvent2 ≠ demoEvent1 := by decide

theorem eventQueue_ordering_C1_witness :
    WFQ demoQueue ∧
    ((∀ e₀ q', dequeue demoQueue = (some e₀, q') →
      ∀ e' ∈ allEvents demoQueue,
        e₀.ts < e'.ts ∨ (e₀.ts = e'.ts ∧ e₀.ptype ≤ e'.ptype)) ∧
    (∀ l, l.Pairwise (fun a b => a.ptype ≤ b.ptype) →
      ∃ l₁ l₂, bucketInsert demoEvent2 l = l₁ ++ demoEvent2 :: l₂ ∧ l = l₁ ++ l₂ ∧
        (∀ x ∈ l₁, x.ptype < demoEvent2.ptype) ∧ (∀ x ∈ l₂, demoEvent2.ptype ≤ x.ptype)) ∧
    (∀ l, (demoEvent2.ts, l) ∈ demoQueue.buckets → l.getLast? = some demoEvent2 →
      enqueue demoQueue demoEvent2 = demoQueue)) :=
  ⟨by decide, eventQueue_ordering_C1 demoQueue demoEvent2 (by decide)⟩

/-- C9 (amended): dequeuing from an empty queue raises and leaves the
state unchanged; peeking an empty queue raises but increments the peek
statistics counter first; on a non-empty well-formed queue neither
raises. -/
theorem emptyQueue_raises_C9 (q : EventQueue) (hwf : WFQ q) :
    (q.len = 0 → dequeue q = (none, q) ∧
      peek q = (none, { q with countPeek := q.countPeek + 1 })) ∧
    (q.len ≠ 0 → (∃ e q', dequeue q = (some e, q')) ∧
      (∃ e, peek q = (some e, { q with countPeek := q.countPeek + 1 }))) := by
  constructor
  · intro hlen
    exact ⟨by simp [dequeue, hlen], by simp [peek, hlen]⟩
  · intro hlen
    have hcnt := hwf.2.2.2.2
    have hlenev : q.len = (allEvents q).length := by
      unfold EventQueue.len
      omega
    have hne : allEvents q ≠ [] := by
      intro h
      rw [h] at hlenev
      exact hlen (by simpa using hlenev)
    rcases hb : q.buckets with _ | ⟨⟨ts, l⟩, rest⟩
    · exact absurd (by simp [allEvents, hb]) hne
    · rcases hl : l with _ | ⟨e, es⟩
      · exact absurd hl (hwf.2.1 (ts, l) (by rw [hb]; exact List.mem_cons_self _ _))
      constructor
      · refine ⟨e, ⟨(if es = [] then rest else (ts, es) :: rest),
          q.countIn, q.countOut + 1, q.countPeek⟩, ?_⟩
        unfold dequeue
        rw [if_neg hlen, hb, hl]
      · refine ⟨e, ?_⟩
        unfold peek
        rw [if_neg hlen, hb, hl]

/-- C9 counterexample: peeking an empty queue does change the queue state,
by incrementing the peek counter before the emptiness check. -/
theorem peek_empty_mutates_cex :
    (peek emptyQueue).1 = none ∧ (peek emptyQueue).2 ≠ emptyQueue ∧
    (peek emptyQueue).2.countPeek = 1 := by decide

theorem emptyQueue_raises_C9_witness :
    WFQ demoQueue ∧
    ((demoQueue.len = 0 → dequeue demoQueue = (none, demoQueue) ∧
      peek demoQueue = (none, { demoQueue with countPeek := demoQueue.countPeek + 1 })) ∧
    (demoQueue.len ≠ 0 → (∃ e q', dequeue demoQueue = (some e, q')) ∧
      (∃ e, peek demoQueue =
        (some e, { demoQueue with countPeek := demoQueue.countPeek + 1 })))) :=
  ⟨by decide, emptyQueue_raises_C9 demoQueue (by decide)⟩

/-- C2: as soon as the worst-fit scheduler finds a fitting site for a
ready task it evaluates the missing attribute `ready_tasks` of the central
queue, so the placement described by the claim raises `AttributeError`
instead of completing; here the single ready task (1 cpu) fits the single
indexed site (5 free resources). -/
theorem worstFit_placement_C2 :
    worstFitTrySchedule 0 ⟨[⟨1, 1⟩], demoCQ, 0⟩ = .error .attributeError := rfl

/-- C3: whenever the monitor handler runs, the stop check evaluates the
missing attributes `task_queue` and `ready_tasks` of the central queue and
raises `AttributeError`; it never completes normally, so `forced_stop` is
never assigned, contrary to the claim — shown even under the claimed
hypotheses of an empty central queue and agreeing counters. -/
theorem evtMonitor_stop_C3 (cq : CQTasksView)
    (_hempty : cq.pendingDependencies = [] ∧ cq.submittedAfterNow = [] ∧ cq.readyTasks = [])
    (_hcnt : cq.submittedTasksCount = cq.finishedTasksCount) :
    evtMonitorStopCheck cq false = .error .attributeError := rfl

theorem evtMonitor_stop_C3_witness :
    (demoView.pendingDependencies = [] ∧ demoView.submittedAfterNow = [] ∧
      demoView.readyTasks = []) ∧
    demoView.submittedTasksCount = demoView.finishedTasksCount ∧
    evtMonitorStopCheck demoView false = .error .attributeError :=
  ⟨by decide, rfl, evtMonitor_stop_C3 demoView ⟨rfl, rfl, rfl⟩ rfl⟩

theorem dropWhile_head_false {α : Type} (pr : α → Bool) (l : List α) (x : α) (xs : List α)
    (h : l.dropWhile pr = x :: xs) : pr x = false := by
  induction l with
  | nil => simp [List.dropWhile] at h
  | cons a as ih =>
    rw [List.dropWhile_cons] at h
    by_cases ha : pr a = true
    · rw [if_pos ha] at h
      exact ih h
    · rw [if_neg ha] at h
      cases h
      simpa using ha

theorem find?_decomp {α : Type} (pr : α → Bool) (l : List α) (a : α)
    (h : l.find? pr = some a) :
    ∃ l₁ l₂, l = l₁ ++ a :: l₂ ∧ ∀ x ∈ l₁, pr x = false := by
  induction l with
  | nil => simp at h
  | cons x xs ih =>
    by_cases hx : pr x = true
    · rw [List.find?_cons_of_pos _ hx] at h
      cases h
      exact ⟨[], xs, rfl, by simp⟩
    · rw [List.find?_cons_of_neg _ hx] at h
      obtain ⟨l₁, l₂, hl, hall⟩ := ih h
      refine ⟨x :: l₁, l₂, by simp [hl], ?_⟩
      intro y hy
      rcases List.mem_cons.mp hy with rfl | hy
      · simpa using hx
      · exact hall y hy

/-- C5: whenever the best-fit scheduler handles a ready task that fits the
total available resources and some eligible (non-leased or non-expiring)
indexed site has enough free resources, the selected site is an eligible
fitting site whose `(free_resources, insertion index)` key is
lexicographically least among all eligible fitting sites: the smallest
free-resource value at least `task.cpus`, ties broken by the smaller
insertion index. -/
theorem bestFit_selects_min_C5 (tsNow : Int) (task : TaskLite) (cq : CQIndex)
    (hsorted : cq.sorted.Pairwise (fun a b => keyLtP (statKey a) (statKey b)))
    (htotal : task.cpus ≤ cq.total)
    (hex : ∃ p ∈ cq.sorted, task.cpus ≤ p.2.free ∧ skipLeased tsNow task.runtime p.2 = false) :
    ∃ p, bestFitChoose tsNow task cq = some p ∧ p ∈ cq.sorted ∧
      task.cpus ≤ p.2.free ∧ skipLeased tsNow task.runtime p.2 = false ∧
      ∀ r ∈ cq.sorted, task.cpus ≤ r.2.free → skipLeased tsNow task.runtime r.2 = false →
        p.2.free < r.2.free ∨ (p.2.free = r.2.free ∧ p.1 ≤ r.1) := by
  obtain ⟨p₀, hp₀mem, hp₀fit, hp₀skip⟩ := hex
  have hguard : ¬ cq.total < task.cpus := not_lt.mpr htotal
  have hsplit : cq.sorted.takeWhile (tooSmall task) ++ cq.sorted.dropWhile (tooSmall task)
      = cq.sorted := by
    exact List.takeWhile_append_dropWhile ..
  have htake : ∀ x ∈ cq.sorted.takeWhile (tooSmall task), x.2.free < task.cpus := by
    intro x hx
    have hpr := List.mem_takeWhile_imp hx
    simpa [tooSmall] using hpr
  have hsortedsplit := hsorted
  rw [← hsplit] at hsortedsplit
  have hpwsuf := (List.pairwise_append.mp hsortedsplit).2.1
  have hmem_suffix : ∀ x ∈ cq.sorted, task.cpus ≤ x.2.free →
      x ∈ cq.sorted.dropWhile (tooSmall task) := by
    intro x hx hxfit
    have hx2 : x ∈ cq.sorted.takeWhile (tooSmall task) ++ cq.sorted.dropWhile (tooSmall task) := by
      rw [hsplit]; exact hx
    rcases List.mem_append.mp hx2 with h | h
    · exact absurd (htake x h) (not_lt.mpr hxfit)
    · exact h
  have hp₀suf := hmem_suffix p₀ hp₀mem hp₀fit
  have hsuffit : ∀ y ∈ cq.sorted.dropWhile (tooSmall task), task.cpus ≤ y.2.free := by
    rcases hsf : cq.sorted.dropWhile (tooSmall task) with _ | ⟨s, stail⟩
    · intro y hy
      cases hy
    · have hs : tooSmall task s = false := dropWhile_head_false _ cq.sorted s stail hsf
      have hsfit : task.cpus ≤ s.2.free := by
        have := of_decide_eq_false hs
        omega
      intro y hy
      rcases List.mem_cons.mp hy with rfl | hy
      · exact hsfit
      · have hpw2 := hpwsuf
        rw [hsf, List.pairwise_cons] at hpw2
        have hk := hpw2.1 y hy
        rcases hk with hk | hk
        · exact le_of_lt (lt_of_le_of_lt hsfit hk)
        · have h1 : s.2.free = y.2.free := hk.1
          omega
  have hfindsome : ((cq.sorted.dropWhile (tooSmall task)).find? (eligible tsNow task)).isSome := by
    refine List.find?_isSome.mpr ⟨p₀, hp₀suf, ?_⟩
    simp [eligible, hp₀skip]
  obtain ⟨p, hp⟩ := Option.isSome_iff_exists.mp hfindsome
  obtain ⟨l₁, l₂, hdec, hl₁⟩ := find?_decomp _ _ p hp
  have hpskip : skipLeased tsNow task.runtime p.2 = false := by
    have := List.find?_some hp
    simpa [eligible] using this
  have hpmem_suf : p ∈ cq.sorted.dropWhile (tooSmall task) := List.mem_of_find?_eq_some hp
  have hpmem : p ∈ cq.sorted := by
    rw [← hsplit]
    exact List.mem_append_right _ hpmem_suf
  refine ⟨p, ?_, hpmem, hsuffit p hpmem_suf, hpskip, ?_⟩
  · unfold bestFitChoose bestFitSelect
    rw [if_neg hguard]
    exact hp
  · intro r hr hrfit hrskip
    have hrsuf := hmem_suffix r hr hrfit
    rw [hdec] at hrsuf
    rcases List.mem_append.mp hrsuf with h | h
    · have := hl₁ r h
      simp [eligible, hrskip] at this
    · rcases List.mem_cons.mp h with rfl | h
      · exact Or.inr ⟨rfl, le_refl _⟩
      · have hpw2 := hpwsuf
        rw [hdec] at hpw2
        have hpl := (List.pairwise_append.mp hpw2).2.1
        rw [List.pairwise_cons] at hpl
        have hk := hpl.1 r h
        rcases hk with hk | hk
        · exact Or.inl hk
        · exact Or.inr ⟨hk.1, le_of_lt hk.2⟩

theorem bestFit_selects_min_C5_witness :
    demoCQ2.sorted.Pairwise (fun a b => keyLtP (statKey a) (statKey b)) ∧
    (⟨4, 1⟩ : TaskLite).cpus ≤ demoCQ2.total ∧
    (∃ p ∈ demoCQ2.sorted, (⟨4, 1⟩ : TaskLite).cpus ≤ p.2.free ∧
      skipLeased 0 (⟨4, 1⟩ : TaskLite).runtime p.2 = false) ∧
    (∃ p, bestFitChoose 0 ⟨4, 1⟩ demoCQ2 = some p ∧ p ∈ demoCQ2.sorted ∧
      (⟨4, 1⟩ : TaskLite).cpus ≤ p.2.free ∧
      skipLeased 0 (⟨4, 1⟩ : TaskLite).runtime p.2 = false ∧
      ∀ r ∈ demoCQ2.sorted, (⟨4, 1⟩ : TaskLite).cpus ≤ r.2.free →
        skipLeased 0 (⟨4, 1⟩ : TaskLite).runtime r.2 = false →
        p.2.free < r.2.free ∨ (p.2.free = r.2.free ∧ p.1 ≤ r.1)) :=
  ⟨by decide, by decide, by decide,
    bestFit_selects_min_C5 0 ⟨4, 1⟩ demoCQ2 (by decide) (by decide) (by decide)⟩

theorem runTicks_eq_ceil (runtime speed : Nat) (h : 0 < speed) :
    runTicks runtime speed = (runtime + speed - 1) / speed := by
  unfold runTicks
  have hdm := Nat.div_add_mod runtime speed
  have hmlt : runtime % speed < speed := Nat.mod_lt _ h
  by_cases hr0 : runtime % speed = 0
  · have hcond : ¬ (runtime / speed * speed < runtime) := by
      rw [Nat.mul_comm]
      omega
    rw [if_neg hcond]
    have h1 : runtime + speed - 1 = speed * (runtime / speed) + (speed - 1) := by omega
    rw [h1, Nat.mul_add_div h, Nat.div_eq_of_lt (show speed - 1 < speed by omega)]
    omega
  · have hcond : runtime / speed * speed < runtime := by
      rw [Nat.mul_comm]
      omega
    rw [if_pos hcond]
    have h1 : runtime + speed - 1 = speed * (runtime / speed + 1) + (runtime % speed - 1) := by
      rw [Nat.mul_succ]
      omega
    rw [h1, Nat.mul_add_div h,
      Nat.div_eq_of_lt (show runtime % speed - 1 < speed by omega)]

theorem rescheduleGo_speed (ts : Int) (l : List STask) (s : SiteState) :
    (rescheduleGo ts l s).speed = s.speed := by
  induction l generalizing s with
  | nil => rfl
  | cons t rest ih =>
    unfold rescheduleGo
    by_cases hfit : (t.cpus : Int) ≤ (s.resources : Int) - s.used
    · rw [if_pos hfit, ih]
      rfl
    · rw [if_neg hfit]

theorem rescheduleGo_running (ts : Int) (l : List STask) (s : SiteState) :
    ∀ p ∈ (rescheduleGo ts l s).running, p ∈ s.running ∨
      (p.2.status = TaskStatus.running ∧ p.2.tsStart = ts ∧
        p.2.tsEnd = ts + (runTicks p.2.runtime s.speed : Int)) := by
  induction l generalizing s with
  | nil =>
    intro p hp
    exact Or.inl hp
  | cons t rest ih =>
    intro p hp
    unfold rescheduleGo at hp
    by_cases hfit : (t.cpus : Int) ≤ (s.resources : Int) - s.used
    · rw [if_pos hfit] at hp
      rcases ih (rescheduleStep ts s t) p hp with h | h
      · unfold rescheduleStep at h
        simp only [List.mem_append, List.mem_singleton] at h
        rcases h with h | h
        · exact Or.inl h
        · subst h
          exact Or.inr ⟨rfl, rfl, rfl⟩
      · exact Or.inr h
    · rw [if_neg hfit] at hp
      exact Or.inl hp

theorem siteStep_runtimes (s s' : SiteState) (hstep : SiteStep s s')
    (hinv : ∀ p ∈ s.running, p.2.status = TaskStatus.running →
      p.2.tsEnd = p.2.tsStart + (runTicks p.2.runtime s.speed : Int)) :
    ∀ p ∈ s'.running, p.2.status = TaskStatus.running →
      p.2.tsEnd = p.2.tsStart + (runTicks p.2.runtime s'.speed : Int) := by
  cases hstep with
  | addTask t s h => exact hinv
  | resched ts s h =>
    intro p hp hrun
    have hspeed : (reschedule ts s).speed = s.speed := rescheduleGo_speed ts s.taskQueue s
    rw [hspeed]
    rcases rescheduleGo_running ts s.taskQueue s p hp with hmem | hnew
    · exact hinv p hmem hrun
    · rw [hnew.2.2, hnew.2.1]
  | finish i t s h hmem =>
    intro p hp hrun
    have hp2 : p ∈ s.running.map (fun q => if q.1 = i then (q.1, q.2.stopTask) else q) :=
      List.mem_of_mem_eraseP hp
    rw [List.mem_map] at hp2
    obtain ⟨q, hq, hpq⟩ := hp2
    by_cases hqi : q.1 = i
    · rw [if_pos hqi] at hpq
      subst hpq
      exact absurd hrun (by simp [STask.stopTask])
    · rw [if_neg hqi] at hpq
      subst hpq
      exact hinv q hq hrun
  | shutdown s =>
    have hsp : (shutdownStep s).speed = s.speed := by
      unfold shutdownStep
      split
      · rfl
      · rfl
    intro p hp hrun
    rw [hsp]
    unfold shutdownStep at hp
    by_cases hidle : (s.running.isEmpty && s.taskQueue.isEmpty) = true
    · rw [if_pos hidle] at hp
      exact hinv p hp hrun
    · rw [if_neg hidle] at hp
      simp only [List.mem_map] at hp
      obtain ⟨q, hq, hpq⟩ := hp
      subst hpq
      exact absurd hrun (by simp [STask.interrupt])

theorem reachableSite_runtimes (s : SiteState) (h : ReachableSite s) :
    ∀ p ∈ s.running, p.2.status = TaskStatus.running →
      p.2.tsEnd = p.2.tsStart + (runTicks p.2.runtime s.speed : Int) := by
  induction h with
  | init sid resources speed =>
    intro p hp _
    cases hp
  | step s s' hr hs ih => exact siteStep_runtimes s s' hs ih

/-- C6: every task started by the RESCHEDULE handler becomes RUNNING with
`ts_start = ts_now` and `ts_end = ts_now + runTicks(runtime, speed)`, where
`runTicks` is the ceiling of `runtime / resource_speed` whenever the speed
is positive; and in every reachable site state every registered task that
is in RUNNING status satisfies
`ts_end = ts_start + ceil(runtime / resource_speed)`. -/
theorem site_run_times_C6 :
    (∀ runtime speed, 0 < speed → runTicks runtime speed = (runtime + speed - 1) / speed) ∧
    (∀ ts s, ∀ p ∈ (reschedule ts s).running, p ∉ s.running →
      p.2.status = TaskStatus.running ∧ p.2.tsStart = ts ∧
      p.2.tsEnd = ts + (runTicks p.2.runtime s.speed : Int)) ∧
    (∀ s, ReachableSite s → ∀ p ∈ s.running, p.2.status = TaskStatus.running →
      p.2.tsEnd = p.2.tsStart + (runTicks p.2.runtime s.speed : Int)) := by
  refine ⟨runTicks_eq_ceil, ?_, reachableSite_runtimes⟩
  intro ts s p hp hnot
  rcases rescheduleGo_running ts s.taskQueue s p hp with h | h
  · exact absurd h hnot
  · exact h

theorem site_run_times_C6_witness :
    runTicks 5 2 = (5 + 2 - 1) / 2 ∧
    (∀ p ∈ (reschedule 0 demoSite).running, p ∉ demoSite.running →
      p.2.status = TaskStatus.running ∧ p.2.tsStart = 0 ∧
      p.2.tsEnd = 0 + (runTicks p.2.runtime demoSite.speed : Int)) ∧
    (∀ p ∈ (reschedule 0 demoSite).running, p.2.status = TaskStatus.running →
      p.2.tsEnd = p.2.tsStart + (runTicks p.2.runtime (reschedule 0 demoSite).speed : Int)) :=
  ⟨site_run_times_C6.1 5 2 (by decide),
   site_run_times_C6.2.1 0 demoSite,
   site_run_times_C6.2.2 (reschedule 0 demoSite)
     (ReachableSite.step _ _
       (ReachableSite.step _ _ (ReachableSite.init 0 4 2)
         (SiteStep.addTask demoTask (initSite 0 4 2) rfl))
       (SiteStep.resched 0 demoSite rfl))⟩

theorem sortedAdd_perm (p : Nat × SiteStat) (l : List (Nat × SiteStat)) :
    (sortedAdd p l).Perm (p :: l) := by
  induction l with
  | nil => exact List.Perm.refl _
  | cons x xs ih =>
    unfold sortedAdd
    by_cases hk : keyLtb (statKey p) (statKey x) = true
    · rw [if_pos hk]
    · rw [if_neg hk]
      exact (ih.cons x).trans (List.Perm.swap p x xs)

theorem enumFrom_mem_bounds {α : Type} {n : Nat} {l : List α} {p : Nat × α}
    (hp : p ∈ List.enumFrom n l) : n ≤ p.1 ∧ p.1 < n + l.length := by
  obtain ⟨k, a⟩ := p
  rw [List.mk_mem_enumFrom_iff_le_and_getElem?_sub] at hp
  have h2 := hp.2
  have h3 : k - n < l.length := by
    by_contra hcon
    rw [List.getElem?_eq_none (by omega)] at h2
    cases h2
  exact ⟨hp.1, by omega⟩

theorem list_decomp_at {α : Type} (l : List α) (i : Nat) (a : α) (h : l[i]? = some a) :
    l = l.take i ++ a :: l.drop (i + 1) ∧ (l.take i).length = i := by
  have hlt : i < l.length := by
    by_contra hcon
    rw [List.getElem?_eq_none (by omega)] at h
    cases h
  have ha : l[i] = a := by
    rw [List.getElem?_eq_getElem hlt] at h
    exact Option.some.inj h
  constructor
  · conv_lhs => rw [← List.take_append_drop i l]
    rw [List.drop_eq_getElem_cons hlt, ha]
  · rw [List.length_take]
    omega

theorem enum_decomp_at (l : List SiteStat) (i : Nat) (a : SiteStat) (h : l[i]? = some a) :
    l.enum = (l.take i).enum ++ (i, a) :: (l.drop (i + 1)).enumFrom (i + 1) := by
  obtain ⟨hdec, hlen⟩ := list_decomp_at l i a h
  conv_lhs => rw [hdec]
  rw [List.enum_append, hlen, List.enumFrom_cons]

theorem enum_take_lt (l : List SiteStat) (i : Nat) (p : Nat × SiteStat)
    (hp : p ∈ (l.take i).enum) : p.1 < i := by
  have hb := enumFrom_mem_bounds hp
  have hl : (l.take i).length ≤ i := by
    rw [List.length_take]
    omega
  omega

theorem sortedRemove_cons_self (p : Nat × SiteStat) (l : List (Nat × SiteStat)) :
    sortedRemove p (p :: l) = l := by
  unfold sortedRemove
  rw [if_pos rfl]

theorem sortedRemove_cons_ne (p x : Nat × SiteStat) (l : List (Nat × SiteStat))
    (h : ¬ x = p) : sortedRemove p (x :: l) = x :: sortedRemove p l := by
  show (if x = p then l else x :: sortedRemove p l) = x :: sortedRemove p l
  rw [if_neg h]

theorem sortedRemove_perm (p : Nat × SiteStat) {l₁ l₂ : List (Nat × SiteStat)}
    (h : l₁.Perm l₂) : (sortedRemove p l₁).Perm (sortedRemove p l₂) := by
  induction h with
  | nil => exact List.Perm.refl _
  | cons x hp ih =>
    by_cases hx : x = p
    · rw [hx, sortedRemove_cons_self, sortedRemove_cons_self]
      exact hp
    · rw [sortedRemove_cons_ne _ _ _ hx, sortedRemove_cons_ne _ _ _ hx]
      exact ih.cons x
  | swap x y l =>
    by_cases hy : y = p
    · by_cases hx : x = p
      · rw [hy, hx]
      · rw [hy, sortedRemove_cons_self, sortedRemove_cons_ne _ _ _ hx, sortedRemove_cons_self]
    · by_cases hx : x = p
      · rw [hx, sortedRemove_cons_ne _ _ _ hy, sortedRemove_cons_self, sortedRemove_cons_self]
      · rw [sortedRemove_cons_ne _ _ _ hy, sortedRemove_cons_ne _ _ _ hx,
          sortedRemove_cons_ne _ _ _ hx, sortedRemove_cons_ne _ _ _ hy]
        exact List.Perm.swap x y _
  | trans h₁ h₂ ih₁ ih₂ => exact ih₁.trans ih₂

theorem sortedRemove_append_not (p : Nat × SiteStat) (l₁ l₂ : List (Nat × SiteStat))
    (h : p ∉ l₁) : sortedRemove p (l₁ ++ l₂) = l₁ ++ sortedRemove p l₂ := by
  induction l₁ with
  | nil => rfl
  | cons x xs ih =>
    have hx : ¬ x = p := by
      intro hc
      exact h (hc ▸ List.mem_cons_self _ _)
    rw [List.cons_append, sortedRemove_cons_ne _ _ _ hx,
      ih (fun hc => h (List.mem_cons_of_mem _ hc)), List.cons_append]

theorem reindexLoop_sorted (suf : List SiteStat) :
    ∀ (idx : Nat) (m : Nat → Option Nat) (sorted rest : List (Nat × SiteStat)),
      sorted.Perm (rest ++ List.enumFrom (idx + 1) suf) →
      (∀ p ∈ rest, p.1 < idx + 1) →
      (reindexLoop idx suf m sorted).2.Perm (rest ++ List.enumFrom idx suf) := by
  induction suf with
  | nil =>
    intro idx m sorted rest hperm hrest
    simpa [reindexLoop] using hperm
  | cons st tail ih =>
    intro idx m sorted rest hperm hrest
    have hnotrest : (idx + 1, st) ∉ rest := by
      intro hmem
      have hb := hrest _ hmem
      simp at hb
    rw [List.enumFrom_cons] at hperm
    have h1 : (sortedRemove (idx + 1, st) sorted).Perm
        (rest ++ List.enumFrom (idx + 1 + 1) tail) := by
      have h2 := sortedRemove_perm (idx + 1, st) hperm
      rw [sortedRemove_append_not _ _ _ hnotrest, sortedRemove_cons_self] at h2
      exact h2
    have h2 : (sortedAdd (idx, st) (sortedRemove (idx + 1, st) sorted)).Perm
        ((rest ++ [(idx, st)]) ++ List.enumFrom (idx + 1 + 1) tail) := by
      refine (sortedAdd_perm _ _).trans ?_
      refine (h1.cons (idx, st)).trans ?_
      simp only [List.append_assoc, List.singleton_append]
      exact List.perm_middle.symm
    have h3 := ih (idx + 1) (fun j => if j = st.sid then some idx else m j) _
      (rest ++ [(idx, st)]) h2 ?_
    · unfold reindexLoop
      refine h3.trans ?_
      rw [List.enumFrom_cons]
      simp only [List.append_assoc, List.singleton_append]
      exact List.Perm.refl _
    · intro p hp
      rcases List.mem_append.mp hp with h | h
      · have := hrest p h
        omega
      · have hp2 := List.mem_singleton.mp h
        subst hp2
        omega

theorem reindexLoop_fst_not (suf : List SiteStat) :
    ∀ (idx : Nat) (m : Nat → Option Nat) (sorted : List (Nat × SiteStat)) (id : Nat),
      (∀ st ∈ suf, st.sid ≠ id) →
      (reindexLoop idx suf m sorted).1 id = m id := by
  induction suf with
  | nil =>
    intro idx m sorted id _
    rfl
  | cons st tail ih =>
    intro idx m sorted id h
    unfold reindexLoop
    rw [ih _ _ _ _ (fun st' hst' => h st' (List.mem_cons_of_mem _ hst'))]
    have hne : ¬ id = st.sid := fun hc => h st (List.mem_cons_self _ _) hc.symm
    simp [hne]

theorem reindexLoop_fst_mem (suf : List SiteStat) :
    ∀ (idx : Nat) (m : Nat → Option Nat) (sorted : List (Nat × SiteStat)) (j : Nat)
      (hj : j < suf.length),
      suf.Pairwise (fun a b => a.sid ≠ b.sid) →
      (reindexLoop idx suf m sorted).1 ((suf.get ⟨j, hj⟩).sid) = some (idx + j) := by
  induction suf with
  | nil =>
    intro idx m sorted j hj
    exact absurd hj (by simp)
  | cons st tail ih =>
    intro idx m sorted j hj hpw
    rw [List.pairwise_cons] at hpw
    unfold reindexLoop
    rcases j with _ | j
    · rw [show ((st :: tail).get ⟨0, hj⟩) = st from rfl]
      rw [reindexLoop_fst_not tail _ _ _ _ (fun st' hst' => (hpw.1 st' hst').symm)]
      simp
    · have hj' : j < tail.length := by simpa using hj
      rw [show ((st :: tail).get ⟨j + 1, hj⟩) = tail.get ⟨j, hj'⟩ from rfl]
      rw [ih (idx + 1) _ _ j hj' hpw.2]
      have harith : idx + 1 + j = idx + (j + 1) := by omega
      rw [harith]

theorem enum_snd_mem {α : Type} {l : List α} {p : Nat × α} (hp : p ∈ l.enum) : p.2 ∈ l := by
  obtain ⟨k, a⟩ := p
  rw [show l.enum = List.enumFrom 0 l from rfl,
    List.mk_mem_enumFrom_iff_le_and_getElem?_sub] at hp
  exact List.getElem?_mem (by simpa using hp.2)

theorem addSiteStats_inv (cq : CQIndex) (site : SiteLite)
    (hagree : agree cq) (hmap : mapOK cq) (htot : totalOK cq)
    (hfresh : ∀ st ∈ cq.stats, st.sid ≠ site.sid) :
    agree (addSiteStats cq site) ∧ mapOK (addSiteStats cq site) ∧
      totalOK (addSiteStats cq site) := by
  have henum : (cq.stats ++ [newSiteStat site]).enum
      = cq.stats.enum ++ [(cq.stats.length, newSiteStat site)] := by
    rw [List.enum_append]
    rfl
  refine ⟨?_, ⟨?_, ?_⟩, ?_⟩
  · show (sortedAdd (cq.stats.length, newSiteStat site) cq.sorted).Perm
      ((cq.stats ++ [newSiteStat site]).enum)
    rw [henum]
    exact (sortedAdd_perm _ _).trans
      ((hagree.cons _).trans (List.perm_append_singleton _ _).symm)
  · intro p hp
    have hp2 : p ∈ cq.stats.enum ++ [(cq.stats.length, newSiteStat site)] := by
      rw [← henum]
      exact hp
    rcases List.mem_append.mp hp2 with h | h
    · have hsid : p.2.sid ≠ site.sid := hfresh p.2 (enum_snd_mem h)
      show (if p.2.sid = site.sid then some cq.stats.length else cq.idx p.2.sid) = some p.1
      rw [if_neg hsid]
      exact hmap.1 p h
    · have hp3 := List.mem_singleton.mp h
      subst hp3
      show (if (newSiteStat site).sid = site.sid then some cq.stats.length
        else cq.idx (newSiteStat site).sid) = some cq.stats.length
      simp [newSiteStat]
  · intro id k hidk
    have hidk2 : (if id = site.sid then some cq.stats.length else cq.idx id) = some k := hidk
    by_cases hid : id = site.sid
    · rw [if_pos hid] at hidk2
      have hk := Option.some.inj hidk2
      refine ⟨newSiteStat site, ?_, hid ▸ rfl⟩
      show (k, newSiteStat site) ∈ (cq.stats ++ [newSiteStat site]).enum
      rw [henum, ← hk]
      exact List.mem_append_right _ (List.mem_singleton.mpr rfl)
    · rw [if_neg hid] at hidk2
      obtain ⟨a, hmem, hsid⟩ := hmap.2 id k hidk2
      refine ⟨a, ?_, hsid⟩
      show (k, a) ∈ (cq.stats ++ [newSiteStat site]).enum
      rw [henum]
      exact List.mem_append_left _ hmem
  · show cq.total + (site.freeResources - site.queuedCpus.sum)
      = ((cq.stats ++ [newSiteStat site]).map SiteStat.free).sum
    rw [List.map_append, List.sum_append, ← htot]
    simp [newSiteStat]

theorem setSiteFree_inv (cq : CQIndex) (i : Nat) (newFree : Int) (cq' : CQIndex)
    (hagree : agree cq) (hmap : mapOK cq)
    (h : setSiteFreeResources cq i newFree = some cq') :
    agree cq' ∧ mapOK cq' ∧ cq'.total = cq.total := by
  unfold setSiteFreeResources at h
  cases hget : cq.stats[i]? with
  | none =>
    rw [hget] at h
    simp only [] at h
    exact Option.noConfusion h
  | some last =>
    rw [hget] at h
    simp only [] at h
    by_cases heq : last.free = newFree
    · rw [if_pos heq] at h
      obtain rfl := Option.some.inj h
      exact ⟨hagree, hmap, rfl⟩
    · rw [if_neg heq] at h
      obtain rfl := Option.some.inj h
      obtain ⟨hdec, hlen⟩ := list_decomp_at cq.stats i last hget
      have hlt : i < cq.stats.length := by
        by_contra hcon
        rw [List.getElem?_eq_none (by omega)] at hget
        cases hget
      have hsetlist : cq.stats.set i { last with free := newFree }
          = cq.stats.take i ++ { last with free := newFree } :: cq.stats.drop (i + 1) := by
        rw [List.set_eq_take_append_cons_drop, if_pos hlt]
      have henum := enum_decomp_at cq.stats i last hget
      have henum2 : (cq.stats.set i { last with free := newFree }).enum
          = (cq.stats.take i).enum ++
            (i, { last with free := newFree }) :: (cq.stats.drop (i + 1)).enumFrom (i + 1) := by
        rw [hsetlist, List.enum_append, hlen, List.enumFrom_cons]
      have hnottake : (i, last) ∉ (cq.stats.take i).enum := by
        intro hmem
        have := enum_take_lt cq.stats i _ hmem
        simp at this
      refine ⟨?_, ⟨?_, ?_⟩, rfl⟩
      · show (sortedAdd (i, { last with free := newFree })
          (sortedRemove (i, last) cq.sorted)).Perm _
        rw [henum2]
        have h1 : (sortedRemove (i, last) cq.sorted).Perm
            ((cq.stats.take i).enum ++ (cq.stats.drop (i + 1)).enumFrom (i + 1)) := by
          have h2 := sortedRemove_perm (i, last) hagree
          rw [henum, sortedRemove_append_not _ _ _ hnottake, sortedRemove_cons_self] at h2
          exact h2
        exact (sortedAdd_perm _ _).trans ((h1.cons _).trans List.perm_middle.symm)
      · intro p hp
        have hp2 : p ∈ (cq.stats.take i).enum ++
            (i, { last with free := newFree }) :: (cq.stats.drop (i + 1)).enumFrom (i + 1) := by
          rw [← henum2]
          exact hp
        show cq.idx p.2.sid = some p.1
        rcases List.mem_append.mp hp2 with h | h
        · have hmem : p ∈ cq.stats.enum := by
            rw [henum]
            exact List.mem_append_left _ h
          exact hmap.1 p hmem
        · rcases List.mem_cons.mp h with hp3 | h
          · subst hp3
            have hmem : (i, last) ∈ cq.stats.enum := by
              rw [henum]
              exact List.mem_append_right _ (List.mem_cons_self _ _)
            exact hmap.1 (i, last) hmem
          · have hmem : p ∈ cq.stats.enum := by
              rw [henum]
              exact List.mem_append_right _ (List.mem_cons_of_mem _ h)
            exact hmap.1 p hmem
      · intro id k hidk
        obtain ⟨a, hmem, hsid⟩ := hmap.2 id k hidk
        rw [henum] at hmem
        rcases List.mem_append.mp hmem with h | h
        · have hmem2 : (k, a) ∈ (cq.stats.set i { last with free := newFree }).enum := by
            rw [henum2]
            exact List.mem_append_left _ h
          exact ⟨a, hmem2, hsid⟩
        · rcases List.mem_cons.mp h with hp3 | h
          · refine ⟨{ last with free := newFree }, ?_, ?_⟩
            · show (k, _) ∈ (cq.stats.set i { last with free := newFree }).enum
              rw [henum2]
              have hk : k = i := congrArg Prod.fst hp3
              rw [hk]
              exact List.mem_append_right _ (List.mem_cons_self _ _)
            · have ha : a = last := congrArg Prod.snd hp3
              rw [← hsid, ha]
          · have hmem2 : (k, a) ∈ (cq.stats.set i { last with free := newFree }).enum := by
              rw [henum2]
              exact List.mem_append_right _ (List.mem_cons_of_mem _ h)
            exact ⟨a, hmem2, hsid⟩

theorem removeSiteStats_inv (cq : CQIndex) (sid : Nat)
    (hagree : agree cq) (hmap : mapOK cq) :
    ∃ cq', removeSiteStats cq sid = some cq' ∧ agree cq' ∧ mapOK cq' ∧
      cq'.idx sid = none ∧ (totalOK cq → totalOK cq') := by
  cases hidx : cq.idx sid with
  | none =>
    refine ⟨cq, ?_, hagree, hmap, hidx, fun h => h⟩
    unfold removeSiteStats
    rw [hidx]
  | some i =>
    obtain ⟨st₀, hmem0, hsid0⟩ := hmap.2 sid i hidx
    have hget : cq.stats[i]? = some st₀ := by
      have h1 : (i, st₀) ∈ List.enumFrom 0 cq.stats := hmem0
      rw [List.mk_mem_enumFrom_iff_le_and_getElem?_sub] at h1
      simpa using h1.2
    obtain ⟨hdec, hlen⟩ := list_decomp_at cq.stats i st₀ hget
    have henum := enum_decomp_at cq.stats i st₀ hget
    have hinj : ∀ p q : Nat × SiteStat, p ∈ cq.stats.enum → q ∈ cq.stats.enum →
        p.2.sid = q.2.sid → p.1 = q.1 := by
      intro p q hp hq hs
      have h1 := hmap.1 p hp
      have h2 := hmap.1 q hq
      rw [hs, h2] at h1
      exact (Option.some.inj h1).symm
    have hmemdrop : ∀ j (hj : j < (cq.stats.drop (i + 1)).length),
        ((i + 1) + j, (cq.stats.drop (i + 1))[j]) ∈ cq.stats.enum := by
      intro j hj
      rw [henum]
      refine List.mem_append_right _ (List.mem_cons_of_mem _ ?_)
      rw [List.mk_add_mem_enumFrom_iff_getElem?]
      rw [List.getElem?_eq_getElem hj]
    have hmemtake : ∀ j (hj : j < (cq.stats.take i).length),
        (j, (cq.stats.take i)[j]) ∈ cq.stats.enum := by
      intro j hj
      rw [henum]
      refine List.mem_append_left _ ?_
      show (j, (cq.stats.take i)[j]) ∈ List.enumFrom 0 (cq.stats.take i)
      rw [List.mk_mem_enumFrom_iff_le_and_getElem?_sub]
      exact ⟨Nat.zero_le _, by rw [Nat.sub_zero, List.getElem?_eq_getElem hj]⟩
    have hpwdrop : (cq.stats.drop (i + 1)).Pairwise (fun a b => a.sid ≠ b.sid) := by
      rw [List.pairwise_iff_getElem]
      intro j j' hj hj' hlt heq
      have e1 := hmemdrop j hj
      have e2 := hmemdrop j' hj'
      have hcontra := hinj _ _ e1 e2 heq
      simp at hcontra
      omega
    have hsidnot : ∀ st' ∈ cq.stats.drop (i + 1), st'.sid ≠ sid := by
      intro st' hst' hc
      obtain ⟨j, hj, hjeq⟩ := List.mem_iff_getElem.mp hst'
      have e1 := hmemdrop j hj
      have e2 := hinj _ _ e1 hmem0 (by rw [hjeq]; rw [hc]; exact hsid0.symm ▸ rfl)
      simp at e2
      omega
    have hnottake : (i, st₀) ∉ (cq.stats.take i).enum := by
      intro hmem
      have hb := enum_take_lt cq.stats i _ hmem
      simp at hb
    refine ⟨{ stats := cq.stats.take i ++ cq.stats.drop (i + 1)
              idx := (reindexLoop i (cq.stats.drop (i + 1))
                (fun j => if j = sid then none else cq.idx j)
                (sortedRemove (i, st₀) cq.sorted)).1
              sorted := (reindexLoop i (cq.stats.drop (i + 1))
                (fun j => if j = sid then none else cq.idx j)
                (sortedRemove (i, st₀) cq.sorted)).2
              total := cq.total - st₀.free }, ?_, ?_, ⟨?_, ?_⟩, ?_, ?_⟩
    · unfold removeSiteStats
      rw [hidx]
      simp only []
      rw [hget]
    · have hperm0 : (sortedRemove (i, st₀) cq.sorted).Perm
          ((cq.stats.take i).enum ++ List.enumFrom (i + 1) (cq.stats.drop (i + 1))) := by
        have h2 := sortedRemove_perm (i, st₀) hagree
        rw [henum, sortedRemove_append_not _ _ _ hnottake, sortedRemove_cons_self] at h2
        exact h2
      have hres := reindexLoop_sorted (cq.stats.drop (i + 1)) i
        (fun j => if j = sid then none else cq.idx j) _ ((cq.stats.take i).enum) hperm0 ?_
      · show (reindexLoop i (cq.stats.drop (i + 1))
          (fun j => if j = sid then none else cq.idx j)
          (sortedRemove (i, st₀) cq.sorted)).2.Perm
          ((cq.stats.take i ++ cq.stats.drop (i + 1)).enum)
        rw [List.enum_append, hlen]
        exact hres
      · intro p hp
        have hb := enum_take_lt cq.stats i p hp
        omega
    · intro p hp
      have hp2 : p ∈ (cq.stats.take i).enum ++
          List.enumFrom i (cq.stats.drop (i + 1)) := by
        have hp3 : p ∈ (cq.stats.take i ++ cq.stats.drop (i + 1)).enum := hp
        rw [List.enum_append, hlen] at hp3
        exact hp3
      rcases List.mem_append.mp hp2 with h | h
      · have hplt : p.1 < i := enum_take_lt cq.stats i p h
        obtain ⟨k, a⟩ := p
        have hk : (cq.stats.take i)[k]? = some a := by
          have h4 : (k, a) ∈ List.enumFrom 0 (cq.stats.take i) := h
          rw [List.mk_mem_enumFrom_iff_le_and_getElem?_sub] at h4
          simpa using h4.2
        have hklt : k < (cq.stats.take i).length := by
          by_contra hcon
          rw [List.getElem?_eq_none (by omega)] at hk
          cases hk
        have hka : (cq.stats.take i)[k] = a := by
          rw [List.getElem?_eq_getElem hklt] at hk
          exact Option.some.inj hk
        have hmema : (k, a) ∈ cq.stats.enum := by
          have := hmemtake k hklt
          rw [hka] at this
          exact this
        have hnot : ∀ st' ∈ cq.stats.drop (i + 1), st'.sid ≠ a.sid := by
          intro st' hst' hc
          obtain ⟨j, hj, hjeq⟩ := List.mem_iff_getElem.mp hst'
          have e1 := hmemdrop j hj
          have e2 := hinj _ _ e1 hmema (by rw [hjeq]; exact hc)
          simp at e2
          omega
        show (reindexLoop i (cq.stats.drop (i + 1)) _ _).1 a.sid = some k
        rw [reindexLoop_fst_not _ _ _ _ _ hnot]
        have hasid : a.sid ≠ sid := by
          intro hc
          have e2 := hinj (k, a) (i, st₀) hmema hmem0 (by rw [hc]; exact hsid0.symm ▸ rfl)
          simp at e2
          omega
        rw [if_neg hasid]
        exact hmap.1 (k, a) hmema
      · obtain ⟨k, a⟩ := p
        rw [List.mk_mem_enumFrom_iff_le_and_getElem?_sub] at h
        obtain ⟨hik, hgk⟩ := h
        have hklt : k - i < (cq.stats.drop (i + 1)).length := by
          by_contra hcon
          rw [List.getElem?_eq_none (by omega)] at hgk
          cases hgk
        have hka : (cq.stats.drop (i + 1))[k - i] = a := by
          rw [List.getElem?_eq_getElem hklt] at hgk
          exact Option.some.inj hgk
        show (reindexLoop i (cq.stats.drop (i + 1)) _ _).1 a.sid = some k
        have hres := reindexLoop_fst_mem (cq.stats.drop (i + 1)) i
          (fun j => if j = sid then none else cq.idx j)
          (sortedRemove (i, st₀) cq.sorted) (k - i) hklt hpwdrop
        rw [show (cq.stats.drop (i + 1)).get ⟨k - i, hklt⟩ = a from hka] at hres
        rw [hres]
        congr 1
        omega
    · intro id k hk
      by_cases hid : ∃ st' ∈ cq.stats.drop (i + 1), st'.sid = id
      · obtain ⟨st', hst', hst'id⟩ := hid
        obtain ⟨j, hj, hjeq⟩ := List.mem_iff_getElem.mp hst'
        have hres := reindexLoop_fst_mem (cq.stats.drop (i + 1)) i
          (fun j => if j = sid then none else cq.idx j)
          (sortedRemove (i, st₀) cq.sorted) j hj hpwdrop
        rw [show (cq.stats.drop (i + 1)).get ⟨j, hj⟩ = st' from hjeq] at hres
        rw [hst'id] at hres
        have hk2 : (reindexLoop i (cq.stats.drop (i + 1))
            (fun j => if j = sid then none else cq.idx j)
            (sortedRemove (i, st₀) cq.sorted)).1 id = some k := hk
        rw [hres] at hk2
        obtain rfl := Option.some.inj hk2
        refine ⟨st', ?_, hst'id⟩
        show (i + j, st') ∈ (cq.stats.take i ++ cq.stats.drop (i + 1)).enum
        rw [List.enum_append, hlen]
        refine List.mem_append_right _ ?_
        rw [List.mk_add_mem_enumFrom_iff_getElem?, List.getElem?_eq_getElem hj, hjeq]
      · have hnot : ∀ st' ∈ cq.stats.drop (i + 1), st'.sid ≠ id := by
          intro st' hst' hc
          exact hid ⟨st', hst', hc⟩
        have hk2 : (reindexLoop i (cq.stats.drop (i + 1))
            (fun j => if j = sid then none else cq.idx j)
            (sortedRemove (i, st₀) cq.sorted)).1 id = some k := hk
        rw [reindexLoop_fst_not _ _ _ _ _ hnot] at hk2
        by_cases hids : id = sid
        · rw [if_pos hids] at hk2
          cases hk2
        · rw [if_neg hids] at hk2
          obtain ⟨a, hmema, hasid⟩ := hmap.2 id k hk2
          have hmema2 := hmema
          rw [henum] at hmema2
          rcases List.mem_append.mp hmema2 with h | h
          · refine ⟨a, ?_, hasid⟩
            show (k, a) ∈ (cq.stats.take i ++ cq.stats.drop (i + 1)).enum
            rw [List.enum_append, hlen]
            exact List.mem_append_left _ h
          · rcases List.mem_cons.mp h with hp3 | h
            · exfalso
              have ha : a = st₀ := congrArg Prod.snd hp3
              rw [ha, hsid0] at hasid
              exact hids hasid.symm
            · exfalso
              obtain ⟨hik, hgk⟩ := List.mk_mem_enumFrom_iff_le_and_getElem?_sub.mp h
              have hklt : k - (i + 1) < (cq.stats.drop (i + 1)).length := by
                by_contra hcon
                rw [List.getElem?_eq_none (by omega)] at hgk
                cases hgk
              have hka : (cq.stats.drop (i + 1))[k - (i + 1)] = a :=
                Option.some.inj ((List.getElem?_eq_getElem hklt).symm.trans hgk)
              refine hnot a ?_ hasid
              rw [← hka]
              exact List.getElem_mem _
    · show (reindexLoop i (cq.stats.drop (i + 1)) _ _).1 sid = none
      rw [reindexLoop_fst_not _ _ _ _ _ hsidnot]
      rw [if_pos rfl]
    · intro htot
      show cq.total - st₀.free =
        ((cq.stats.take i ++ cq.stats.drop (i + 1)).map SiteStat.free).sum
      have hsum : (cq.stats.map SiteStat.free).sum
          = ((cq.stats.take i).map SiteStat.free).sum + (st₀.free +
            ((cq.stats.drop (i + 1)).map SiteStat.free).sum) := by
        conv_lhs => rw [hdec]
        rw [List.map_append, List.sum_append, List.map_cons, List.sum_cons]
      rw [List.map_append, List.sum_append]
      rw [totalOK] at htot
      omega

theorem mapOK_demoCQ2 : mapOK demoCQ2 := by
  constructor
  · decide
  · intro id k h
    have h2 : (if id = 8 then some 0 else if id = 7 then some 1 else none) = some k := h
    by_cases h8 : id = 8
    · rw [if_pos h8] at h2
      obtain rfl := Option.some.inj h2
      exact ⟨demoStatSmall, by decide, by rw [h8]; rfl⟩
    · rw [if_neg h8] at h2
      by_cases h7 : id = 7
      · rw [if_pos h7] at h2
        obtain rfl := Option.some.inj h2
        exact ⟨demoStat, by decide, by rw [h7]; rfl⟩
      · rw [if_neg h7] at h2
        exact Option.noConfusion h2

/-- C7 (amended): adding a site with a fresh id and removing a site each
preserve the full site-stat index invariant (the sorted view is a
permutation of the indexed insertion list, the id map is consistent, and
the total equals the sum of the indexed free resources); updating a site's
free resources through `set_site_free_resources` preserves the agreement
of the two orderings and the id map but leaves `total_available_resources`
unchanged, so the sum equality can break there until the next monitoring
pass recomputes the total. -/
theorem siteStatIndex_C7 (cq : CQIndex) (hagree : agree cq) (hmap : mapOK cq)
    (htot : totalOK cq) :
    (∀ site : SiteLite, (∀ st ∈ cq.stats, st.sid ≠ site.sid) →
      agree (addSiteStats cq site) ∧ mapOK (addSiteStats cq site) ∧
        totalOK (addSiteStats cq site)) ∧
    (∀ sid, ∃ cq', removeSiteStats cq sid = some cq' ∧ agree cq' ∧ mapOK cq' ∧
      totalOK cq') ∧
    (∀ i newFree cq', setSiteFreeResources cq i newFree = some cq' →
      agree cq' ∧ mapOK cq' ∧ cq'.total = cq.total) := by
  refine ⟨fun site hfresh => addSiteStats_inv cq site hagree hmap htot hfresh, ?_,
    fun i newFree cq' h => setSiteFree_inv cq i newFree cq' hagree hmap h⟩
  intro sid
  obtain ⟨cq', h1, h2, h3, _, h5⟩ := removeSiteStats_inv cq sid hagree hmap
  exact ⟨cq', h1, h2, h3, h5 htot⟩

/-- C7 counterexample: a site is indexed with 5 free resources (so the
total is 5); `set_site_free_resources` then lowers its indexed free
resources to 1, after which the sum of the indexed free resources is 1
while `total_available_resources` still reads 5 — the claimed equality
fails right after this mutation. -/
theorem siteStat_total_cex :
    (setSiteFreeResources (addSiteStats emptyCQ demoSiteView) 0 1).map
      (fun c => (c.total, (c.stats.map SiteStat.free).sum)) = some (5, 1) ∧
    (5 : Int) ≠ 1 := by decide

theorem siteStatIndex_C7_witness :
    agree demoCQ2 ∧ mapOK demoCQ2 ∧ totalOK demoCQ2 ∧
    ((∀ site : SiteLite, (∀ st ∈ demoCQ2.stats, st.sid ≠ site.sid) →
      agree (addSiteStats demoCQ2 site) ∧ mapOK (addSiteStats demoCQ2 site) ∧
        totalOK (addSiteStats demoCQ2 site)) ∧
    (∀ sid, ∃ cq', removeSiteStats demoCQ2 sid = some cq' ∧ agree cq' ∧ mapOK cq' ∧
      totalOK cq') ∧
    (∀ i newFree cq', setSiteFreeResources demoCQ2 i newFree = some cq' →
      agree cq' ∧ mapOK cq' ∧ cq'.total = demoCQ2.total)) :=
  ⟨by decide, mapOK_demoCQ2, by decide,
   siteStatIndex_C7 demoCQ2 (by decide) mapOK_demoCQ2 (by decide)⟩

/-- C10: removing a site id that is absent from the id map returns with
the state unchanged, for every central-queue state; consequently, under
the structural index invariant, removing the same site twice has the same
effect as removing it once. -/
theorem removeSiteStats_idem_C10 (cq : CQIndex) :
    (∀ sid, cq.idx sid = none → removeSiteStats cq sid = some cq) ∧
    (∀ sid, agree cq → mapOK cq →
      (removeSiteStats cq sid).bind (fun c => removeSiteStats c sid)
        = removeSiteStats cq sid) := by
  have habs : ∀ (c : CQIndex) (s : Nat), c.idx s = none → removeSiteStats c s = some c := by
    intro c s h
    unfold removeSiteStats
    rw [h]
  refine ⟨habs cq, ?_⟩
  intro sid hagree hmap
  obtain ⟨cq', h1, _, _, h4, _⟩ := removeSiteStats_inv cq sid hagree hmap
  rw [h1]
  show removeSiteStats cq' sid = some cq'
  exact habs cq' sid h4

theorem removeSiteStats_idem_C10_witness :
    demoCQ2.idx 99 = none ∧ removeSiteStats demoCQ2 99 = some demoCQ2 ∧
    agree demoCQ2 ∧ mapOK demoCQ2 ∧
    (removeSiteStats demoCQ2 8).bind (fun c => removeSiteStats c 8)
      = removeSiteStats demoCQ2 8 :=
  ⟨rfl, (removeSiteStats_idem_C10 demoCQ2).1 99 rfl,
   by decide, mapOK_demoCQ2,
   (removeSiteStats_idem_C10 demoCQ2).2 8 (by decide) mapOK_demoCQ2⟩

/-- C8: the critical path length of the two-task chain with unit runtimes
is 2 for submit times (0,0) and (1,1) and 3 for submit times (0,2), and
the second variant also reports a path of 2 tasks in each case. -/
theorem criticalPath_chain_C8 :
    calcCriticalPathLength (chainTasks 0 0) = some 2 ∧
    calcCriticalPathLength (chainTasks 1 1) = some 2 ∧
    calcCriticalPathLength (chainTasks 0 2) = some 3 ∧
    calcCriticalPathLength2 (chainTasks 0 0) = some (2, 2) ∧
    calcCriticalPathLength2 (chainTasks 1 1) = some (2, 2) ∧
    calcCriticalPathLength2 (chainTasks 0 2) = some (3, 2) := by decide

theorem reachInsert_self (s : Nat) (w : List Nat) (l : Reach) :
    (s, w) ∈ reachInsert s w l := by
  induction l with
  | nil => exact List.mem_cons_self ..
  | cons q rest ih =>
    obtain ⟨s₀, w₀⟩ := q
    unfold reachInsert
    by_cases h1 : s = s₀
    · rw [if_pos h1]; exact List.mem_cons_self ..
    · rw [if_neg h1]
      by_cases h2 : s₀ < s
      · rw [if_pos h2]; exact List.mem_cons_self ..
      · rw [if_neg h2]; exact List.mem_cons_of_mem _ ih

theorem reachInsert_keys (s : Nat) (w : List Nat) (l : Reach) (n : Nat) (v : List Nat)
    (hp : (n, v) ∈ l) : n = s ∨ (n, v) ∈ reachInsert s w l := by
  induction l with
  | nil => exact absurd hp (List.not_mem_nil _)
  | cons q rest ih =>
    obtain ⟨s₀, w₀⟩ := q
    unfold reachInsert
    rcases List.mem_cons.mp hp with he | hin
    · have h5 : n = s₀ := congrArg Prod.fst he
      by_cases h1 : s = s₀
      · exact Or.inl (by omega)
      · rw [if_neg h1]
        by_cases h2 : s₀ < s
        · rw [if_pos h2]
          exact Or.inr (List.mem_cons_of_mem _ (List.mem_cons.mpr (Or.inl he)))
        · rw [if_neg h2]; exact Or.inr (List.mem_cons.mpr (Or.inl he))
    · by_cases h1 : s = s₀
      · rw [if_pos h1]; exact Or.inr (List.mem_cons_of_mem _ hin)
      · rw [if_neg h1]
        by_cases h2 : s₀ < s
        · rw [if_pos h2]
          exact Or.inr (List.mem_cons_of_mem _ (List.mem_cons_of_mem _ hin))
        · rw [if_neg h2]
          rcases ih hin with hl | hr
          · exact Or.inl hl
          · exact Or.inr (List.mem_cons_of_mem _ hr)

theorem reachInsert_sound (s : Nat) (w : List Nat) (l : Reach) (p : Nat × List Nat)
    (hp : p ∈ reachInsert s w l) : p = (s, w) ∨ p ∈ l := by
  induction l with
  | nil =>
    rcases List.mem_cons.mp hp with he | hin
    · exact Or.inl he
    · exact absurd hin (List.not_mem_nil _)
  | cons q rest ih =>
    obtain ⟨s₀, w₀⟩ := q
    unfold reachInsert at hp
    by_cases h1 : s = s₀
    · rw [if_pos h1] at hp
      rcases List.mem_cons.mp hp with he | hin
      · exact Or.inl he
      · exact Or.inr (List.mem_cons_of_mem _ hin)
    · rw [if_neg h1] at hp
      by_cases h2 : s₀ < s
      · rw [if_pos h2] at hp
        rcases List.mem_cons.mp hp with he | hin
        · exact Or.inl he
        · exact Or.inr hin
      · rw [if_neg h2] at hp
        rcases List.mem_cons.mp hp with he | hin
        · exact Or.inr (List.mem_cons.mpr (Or.inl he))
        · rcases ih hin with hl | hr
          · exact Or.inl hl
          · exact Or.inr (List.mem_cons_of_mem _ hr)

/-- A sub-multiset of a list extended with one trailing item either avoids
the new item or ends in it. -/
theorem sublist_snoc_cases (sub P : List Nat) (item : Nat)
    (h : sub.Sublist (P ++ [item])) :
    sub.Sublist P ∨ ∃ sub₀, sub = sub₀ ++ [item] ∧ sub₀.Sublist P := by
  rcases List.sublist_append_iff.mp h with ⟨l₁, l₂, hsub, h₁, h₂⟩
  rcases List.sublist_singleton.mp h₂ with h₂ | h₂
  · subst h₂; rw [List.append_nil] at hsub; subst hsub; exact Or.inl h₁
  · subst h₂; exact Or.inr ⟨l₁, hsub, h₁⟩

theorem updateClosest_sound (r : Nat) (v : List Nat) (o : Option (Nat × List Nat))
    (p : Nat × List Nat) (h : updateClosest r v o = some p) : p = (r, v) ∨ o = some p := by
  cases o with
  | none =>
    simp only [updateClosest] at h
    injection h with h
    exact Or.inl h.symm
  | some q =>
    obtain ⟨cs, cw⟩ := q
    simp only [updateClosest] at h
    by_cases h1 : r < cs
    · rw [if_pos h1] at h
      injection h with h
      exact Or.inl h.symm
    · rw [if_neg h1] at h
      injection h with h
      exact Or.inr (by rw [h])

theorem updateClosest_le (r : Nat) (v : List Nat) (o : Option (Nat × List Nat)) :
    ∃ p, updateClosest r v o = some p ∧ p.1 ≤ r ∧ ∀ q, o = some q → p.1 ≤ q.1 := by
  cases o with
  | none => exact ⟨(r, v), rfl, le_refl r, fun q hq => Option.noConfusion hq⟩
  | some q =>
    obtain ⟨cs, cw⟩ := q
    by_cases h1 : r < cs
    · refine ⟨(r, v), ?_, le_refl r, ?_⟩
      · simp only [updateClosest]; rw [if_pos h1]
      · intro q hq
        injection hq with hq
        have h2 : cs = q.1 := congrArg Prod.fst hq
        show r ≤ q.1
        omega
    · refine ⟨(cs, cw), ?_, by show cs ≤ r; omega, ?_⟩
      · simp only [updateClosest]; rw [if_neg h1]
      · intro q hq
        injection hq with hq
        exact le_of_eq (congrArg Prod.fst hq)

/-- Effect of one inner pass of the dynamic program on the reachable
dictionary: entries come from the old state or the snapshot, old keys
survive, and snapshot keys bumped by the item that stay below the target
are recorded. -/
theorem processEntries_ok_reach (target item : Nat) (snap : Reach) (st st₂ : DPState)
    (h : processEntries target item snap st = .ok st₂) :
    (∀ p ∈ st₂.reach, p ∈ st.reach ∨ ∃ n w, (n, w) ∈ snap ∧ p = (n + item, w ++ [item])) ∧
    (∀ n w, (n, w) ∈ st.reach → ∃ w₂, (n, w₂) ∈ st₂.reach) ∧
    (∀ n w, (n, w) ∈ snap → n + item < target → ∃ w₂, (n + item, w₂) ∈ st₂.reach) := by
  induction snap generalizing st with
  | nil =>
    simp only [processEntries] at h
    cases h
    exact ⟨fun p hp => Or.inl hp, fun n w hw => ⟨w, hw⟩,
      fun n w hw _ => absurd hw (List.not_mem_nil _)⟩
  | cons q rest ih =>
    obtain ⟨qn, qw⟩ := q
    simp only [processEntries] at h
    by_cases h1 : target < qn + item
    · rw [if_pos h1] at h
      have IH := ih _ h
      refine ⟨?_, IH.2.1, ?_⟩
      · intro p hp
        rcases IH.1 p hp with hc | ⟨m, v, hmv, hpe⟩
        · exact Or.inl hc
        · exact Or.inr ⟨m, v, List.mem_cons_of_mem _ hmv, hpe⟩
      · intro m v hmv hlt
        rcases List.mem_cons.mp hmv with he | hin
        · have h5 : m = qn := congrArg Prod.fst he
          omega
        · exact IH.2.2 m v hin hlt
    · rw [if_neg h1] at h
      by_cases h2 : qn + item = target
      · rw [if_pos h2] at h
        exact Except.noConfusion h
      · rw [if_neg h2] at h
        have IH := ih _ h
        refine ⟨?_, ?_, ?_⟩
        · intro p hp
          rcases IH.1 p hp with hc | ⟨m, v, hmv, hpe⟩
          · rcases reachInsert_sound (qn + item) (qw ++ [item]) st.reach p hc with he | hin
            · exact Or.inr ⟨qn, qw, List.mem_cons_self .., he⟩
            · exact Or.inl hin
          · exact Or.inr ⟨m, v, List.mem_cons_of_mem _ hmv, hpe⟩
        · intro n w hw
          rcases reachInsert_keys (qn + item) (qw ++ [item]) st.reach n w hw with he | hin
          · obtain ⟨w₂, hw₂⟩ :=
              IH.2.1 (qn + item) (qw ++ [item]) (reachInsert_self (qn + item) (qw ++ [item]) st.reach)
            exact ⟨w₂, by rw [he]; exact hw₂⟩
          · exact IH.2.1 n w hin
        · intro m v hmv hlt
          rcases List.mem_cons.mp hmv with he | hin
          · have h5 : m = qn := congrArg Prod.fst he
            obtain ⟨w₂, hw₂⟩ :=
              IH.2.1 (qn + item) (qw ++ [item]) (reachInsert_self (qn + item) (qw ++ [item]) st.reach)
            exact ⟨w₂, by rw [h5]; exact hw₂⟩
          · exact IH.2.2 m v hin hlt

/-- The early return of the inner pass carries a snapshot witness bumped by
the item whose sum is exactly the target. -/
theorem processEntries_err (target item : Nat) (snap : Reach) (st : DPState)
    (wr : List Nat) (h : processEntries target item snap st = .error wr) :
    ∃ n w, (n, w) ∈ snap ∧ n + item = target ∧ wr = w ++ [item] := by
  induction snap generalizing st with
  | nil =>
    simp only [processEntries] at h
    exact Except.noConfusion h
  | cons q rest ih =>
    obtain ⟨qn, qw⟩ := q
    simp only [processEntries] at h
    by_cases h1 : target < qn + item
    · rw [if_pos h1] at h
      obtain ⟨n, w, hmem, hs, hw⟩ := ih _ h
      exact ⟨n, w, List.mem_cons_of_mem _ hmem, hs, hw⟩
    · rw [if_neg h1] at h
      by_cases h2 : qn + item = target
      · rw [if_pos h2] at h
        injection h with h
        exact ⟨qn, qw, List.mem_cons_self .., h2, h.symm⟩
      · rw [if_neg h2] at h
        obtain ⟨n, w, hmem, hs, hw⟩ := ih _ h
        exact ⟨n, w, List.mem_cons_of_mem _ hmem, hs, hw⟩

/-- If some snapshot entry bumped by the item hits the target exactly, the
inner pass returns early. -/
theorem processEntries_hits (target item : Nat) (snap : Reach) (st : DPState)
    (n : Nat) (w : List Nat) (hq : (n, w) ∈ snap) (hqt : n + item = target) :
    ∃ wr, processEntries target item snap st = .error wr := by
  induction snap generalizing st with
  | nil => exact absurd hq (List.not_mem_nil _)
  | cons q rest ih =>
    obtain ⟨qn, qw⟩ := q
    simp only [processEntries]
    by_cases h1 : target < qn + item
    · rw [if_pos h1]
      rcases List.mem_cons.mp hq with he | hin
      · have h5 : n = qn := congrArg Prod.fst he
        omega
      · exact ih _ hin
    · rw [if_neg h1]
      by_cases h2 : qn + item = target
      · rw [if_pos h2]
        exact ⟨qw ++ [item], rfl⟩
      · rw [if_neg h2]
        rcases List.mem_cons.mp hq with he | hin
        · have h5 : n = qn := congrArg Prod.fst he
          omega
        · exact ih _ hin

/-- Effect of one inner pass on the tracked closest pair: any tracked pair
is the old one or a bumped snapshot entry above the target, a tracked pair
never gets worse, and every bumped snapshot entry above the target forces a
tracked pair at least as good. -/
theorem processEntries_ok_closest (target item : Nat) (snap : Reach) (st st₂ : DPState)
    (h : processEntries target item snap st = .ok st₂) :
    (∀ p, st₂.closest = some p → st.closest = some p ∨
        ∃ n w, (n, w) ∈ snap ∧ p = (n + item, w ++ [item]) ∧ target < n + item) ∧
    (∀ p, st.closest = some p → ∃ p₂, st₂.closest = some p₂ ∧ p₂.1 ≤ p.1) ∧
    (∀ n w, (n, w) ∈ snap → target < n + item →
        ∃ p₂, st₂.closest = some p₂ ∧ p₂.1 ≤ n + item) := by
  induction snap generalizing st with
  | nil =>
    simp only [processEntries] at h
    cases h
    exact ⟨fun p hp => Or.inl hp, fun p hp => ⟨p, hp, le_refl _⟩,
      fun n w hw _ => absurd hw (List.not_mem_nil _)⟩
  | cons q rest ih =>
    obtain ⟨qn, qw⟩ := q
    simp only [processEntries] at h
    by_cases h1 : target < qn + item
    · rw [if_pos h1] at h
      have IH := ih _ h
      obtain ⟨pu, hpu, hpule, hpumin⟩ := updateClosest_le (qn + item) (qw ++ [item]) st.closest
      refine ⟨?_, ?_, ?_⟩
      · intro p hp
        rcases IH.1 p hp with hc | ⟨m, v, hmv, hpe, hlt⟩
        · rcases updateClosest_sound (qn + item) (qw ++ [item]) st.closest p hc with h3 | h3
          · exact Or.inr ⟨qn, qw, List.mem_cons_self .., h3, h1⟩
          · exact Or.inl h3
        · exact Or.inr ⟨m, v, List.mem_cons_of_mem _ hmv, hpe, hlt⟩
      · intro p hp
        have h6 := hpumin p hp
        obtain ⟨p₂, hp₂, hle⟩ := IH.2.1 pu hpu
        exact ⟨p₂, hp₂, le_trans hle h6⟩
      · intro m v hmv hlt
        rcases List.mem_cons.mp hmv with he | hin
        · have h5 : m = qn := congrArg Prod.fst he
          obtain ⟨p₂, hp₂, hle⟩ := IH.2.1 pu hpu
          exact ⟨p₂, hp₂, by omega⟩
        · exact IH.2.2 m v hin hlt
    · rw [if_neg h1] at h
      by_cases h2 : qn + item = target
      · rw [if_pos h2] at h
        exact Except.noConfusion h
      · rw [if_neg h2] at h
        have IH := ih _ h
        refine ⟨?_, IH.2.1, ?_⟩
        · intro p hp
          rcases IH.1 p hp with hc | ⟨m, v, hmv, hpe, hlt⟩
          · exact Or.inl hc
          · exact Or.inr ⟨m, v, List.mem_cons_of_mem _ hmv, hpe, hlt⟩
        · intro m v hmv hlt
          rcases List.mem_cons.mp hmv with he | hin
          · have h5 : m = qn := congrArg Prod.fst he
            omega
          · exact IH.2.2 m v hin hlt

/-- The dynamic program invariant holds initially: only the empty subset
with sum 0 is reachable and nothing is tracked. -/
theorem initDP_inv (target : Nat) : DPInv target [] initDP := by
  refine ⟨?_, ?_, ⟨[], by simp [initDP]⟩, ⟨?_, ?_⟩, ?_⟩
  · intro n w hw
    rcases List.mem_cons.mp hw with he | hin
    · have h1 : n = 0 := congrArg Prod.fst he
      have h2 : w = [] := congrArg Prod.snd he
      subst h1; subst h2
      exact ⟨List.nil_sublist [], rfl⟩
    · exact absurd hin (List.not_mem_nil _)
  · intro sub hsub _
    have h := List.sublist_nil.mp hsub
    subst h
    exact ⟨[], by simp [initDP]⟩
  · intro _ sub hsub
    rw [List.sublist_nil.mp hsub]
    exact Nat.zero_le target
  · intro cs cw hcs
    exact Option.noConfusion hcs
  · intro sub hsub hne
    exact absurd (List.sublist_nil.mp hsub) hne

/-- One item of the outer loop of `_subset_with_sum` preserves the
dynamic-program invariant, extending the processed prefix by the item. -/
theorem processItem_ok_inv (target : Nat) (P : List Nat) (item : Nat) (st st₂ : DPState)
    (hinv : DPInv target P st) (h : processItem target st item = .ok st₂) :
    DPInv target (P ++ [item]) st₂ := by
  obtain ⟨hsound, hcomp, ⟨w₀, hw₀⟩, hclosest, hnoex⟩ := hinv
  have hpe : processEntries target item st.reach st = .ok st₂ := h
  have hreach := processEntries_ok_reach target item st.reach st st₂ hpe
  have hclo := processEntries_ok_closest target item st.reach st st₂ hpe
  have hnoex₂ : NoExact target (P ++ [item]) := by
    intro sub hsub hne hsum
    rcases sublist_snoc_cases sub P item hsub with hc | ⟨sub₀, hse, hc⟩
    · exact hnoex sub hc hne hsum
    · have hs : sub₀.sum + item = target := by
        rw [hse, List.sum_append] at hsum
        simp only [List.sum_cons, List.sum_nil] at hsum
        omega
      by_cases hlt : sub₀.sum < target
      · obtain ⟨w, hw⟩ := hcomp sub₀ hc hlt
        obtain ⟨wr, hwr⟩ := processEntries_hits target item st.reach st sub₀.sum w hw hs
        rw [hpe] at hwr
        exact Except.noConfusion hwr
      · have h1 : sub₀.sum = target := by omega
        by_cases hnil : sub₀ = []
        · have h2 : (0 : Nat) + item = target := by
            subst hnil
            simp only [List.sum_nil] at h1
            omega
          obtain ⟨wr, hwr⟩ := processEntries_hits target item st.reach st 0 w₀ hw₀ h2
          rw [hpe] at hwr
          exact Except.noConfusion hwr
        · exact absurd h1 (hnoex sub₀ hc hnil)
  refine ⟨?_, ?_, ?_, ?_, hnoex₂⟩
  · intro n w hw
    rcases hreach.1 (n, w) hw with hc | ⟨m, v, hmv, hpe₂⟩
    · obtain ⟨h1, h2⟩ := hsound n w hc
      exact ⟨h1.trans (List.sublist_append_left P [item]), h2⟩
    · obtain ⟨h1, h2⟩ := hsound m v hmv
      have hn : n = m + item := congrArg Prod.fst hpe₂
      have hw2 : w = v ++ [item] := congrArg Prod.snd hpe₂
      constructor
      · rw [hw2]
        exact h1.append (List.Sublist.refl [item])
      · rw [hw2, List.sum_append, h2, hn]
        simp only [List.sum_cons, List.sum_nil]
        omega
  · intro sub hsub hlt
    rcases sublist_snoc_cases sub P item hsub with hc | ⟨sub₀, hse, hc⟩
    · obtain ⟨w, hw⟩ := hcomp sub hc hlt
      exact hreach.2.1 sub.sum w hw
    · have hsum : sub.sum = sub₀.sum + item := by
        rw [hse, List.sum_append]
        simp only [List.sum_cons, List.sum_nil]
        omega
      have hlt₀ : sub₀.sum < target := by omega
      obtain ⟨w, hw⟩ := hcomp sub₀ hc hlt₀
      obtain ⟨w₂, hw₂⟩ := hreach.2.2 sub₀.sum w hw (by omega)
      exact ⟨w₂, by rw [hsum]; exact hw₂⟩
  · obtain ⟨w₂, hw₂⟩ := hreach.2.1 0 w₀ hw₀
    exact ⟨w₂, hw₂⟩
  · constructor
    · intro hnone sub hsub
      have hstnone : st.closest = none := by
        cases hcs : st.closest with
        | none => rfl
        | some p =>
          obtain ⟨p₂, hp₂, _⟩ := hclo.2.1 p hcs
          rw [hnone] at hp₂
          exact Option.noConfusion hp₂
      rcases sublist_snoc_cases sub P item hsub with hc | ⟨sub₀, hse, hc⟩
      · exact hclosest.1 hstnone sub hc
      · by_contra hgt
        have hsum : sub.sum = sub₀.sum + item := by
          rw [hse, List.sum_append]
          simp only [List.sum_cons, List.sum_nil]
          omega
        have h0 : sub₀.sum ≤ target := hclosest.1 hstnone sub₀ hc
        by_cases hlt : sub₀.sum < target
        · obtain ⟨w, hw⟩ := hcomp sub₀ hc hlt
          obtain ⟨p₂, hp₂, _⟩ := hclo.2.2 sub₀.sum w hw (by omega)
          rw [hnone] at hp₂
          exact Option.noConfusion hp₂
        · have h1 : sub₀.sum = target := by omega
          by_cases hnil : sub₀ = []
          · have h2 : target < 0 + item := by
              subst hnil
              simp only [List.sum_nil] at h1 hsum
              omega
            obtain ⟨p₂, hp₂, _⟩ := hclo.2.2 0 w₀ hw₀ h2
            rw [hnone] at hp₂
            exact Option.noConfusion hp₂
          · exact absurd h1 (hnoex sub₀ hc hnil)
    · intro cs cw hc₂
      have hmin : ∀ sub : List Nat, sub.Sublist (P ++ [item]) → target < sub.sum →
          cs ≤ sub.sum := by
        intro sub hsub hlt
        rcases sublist_snoc_cases sub P item hsub with hcase | ⟨sub₀, hse, hcase⟩
        · cases hcs₀ : st.closest with
          | none =>
            have := hclosest.1 hcs₀ sub hcase
            omega
          | some p =>
            obtain ⟨pcs, pcw⟩ := p
            obtain ⟨-, -, -, hminP⟩ := hclosest.2 pcs pcw hcs₀
            obtain ⟨p₂, hp₂, hle⟩ := hclo.2.1 (pcs, pcw) hcs₀
            rw [hc₂] at hp₂
            injection hp₂ with hp₃
            have h6 := hminP sub hcase hlt
            have h7 : p₂.1 ≤ pcs := hle
            have h8 : cs = p₂.1 := congrArg Prod.fst hp₃
            omega
        · have hsum : sub.sum = sub₀.sum + item := by
            rw [hse, List.sum_append]
            simp only [List.sum_cons, List.sum_nil]
            omega
          by_cases hlt₀ : sub₀.sum < target
          · obtain ⟨w, hw⟩ := hcomp sub₀ hcase hlt₀
            obtain ⟨p₂, hp₂, hle⟩ := hclo.2.2 sub₀.sum w hw (by omega)
            rw [hc₂] at hp₂
            injection hp₂ with hp₃
            have h8 : cs = p₂.1 := congrArg Prod.fst hp₃
            omega
          · by_cases hnil : sub₀ = []
            · have h2 : target < 0 + item := by
                subst hnil
                simp only [List.sum_nil] at hlt₀ hsum
                omega
              obtain ⟨p₂, hp₂, hle⟩ := hclo.2.2 0 w₀ hw₀ h2
              rw [hc₂] at hp₂
              injection hp₂ with hp₃
              have h8 : cs = p₂.1 := congrArg Prod.fst hp₃
              omega
            · by_cases heq : sub₀.sum = target
              · exact absurd heq (hnoex sub₀ hcase hnil)
              · have hgt₀ : target < sub₀.sum := by omega
                cases hcs₀ : st.closest with
                | none => exact absurd (hclosest.1 hcs₀ sub₀ hcase) (by omega)
                | some p =>
                  obtain ⟨pcs, pcw⟩ := p
                  obtain ⟨-, -, -, hminP⟩ := hclosest.2 pcs pcw hcs₀
                  have h6 := hminP sub₀ hcase hgt₀
                  obtain ⟨p₂, hp₂, hle⟩ := hclo.2.1 (pcs, pcw) hcs₀
                  rw [hc₂] at hp₂
                  injection hp₂ with hp₃
                  have h8 : cs = p₂.1 := congrArg Prod.fst hp₃
                  have h7 : p₂.1 ≤ pcs := hle
                  omega
      rcases hclo.1 (cs, cw) hc₂ with hold | ⟨m, v, hmv, hpe₂, hlt⟩
      · obtain ⟨h1, h2, h3, -⟩ := hclosest.2 cs cw hold
        exact ⟨h1.trans (List.sublist_append_left P [item]), h2, h3, hmin⟩
      · obtain ⟨h1, h2⟩ := hsound m v hmv
        have hc1 : cs = m + item := congrArg Prod.fst hpe₂
        have hc2 : cw = v ++ [item] := congrArg Prod.snd hpe₂
        refine ⟨?_, ?_, by omega, hmin⟩
        · rw [hc2]
          exact h1.append (List.Sublist.refl [item])
        · rw [hc2, List.sum_append, h2, hc1]
          simp only [List.sum_cons, List.sum_nil]
          omega

/-- Running the outer loop over a list of items extends the processed
prefix while preserving the invariant. -/
theorem runItems_ok_inv (target : Nat) (items P : List Nat) (st st₂ : DPState)
    (hinv : DPInv target P st) (h : runItems target items st = .ok st₂) :
    DPInv target (P ++ items) st₂ := by
  induction items generalizing P st with
  | nil =>
    simp only [runItems] at h
    cases h
    rw [List.append_nil]
    exact hinv
  | cons i is ih =>
    simp only [runItems] at h
    cases hpi : processItem target st i with
    | error w =>
      rw [hpi] at h
      simp only [] at h
      exact Except.noConfusion h
    | ok st₁ =>
      rw [hpi] at h
      simp only [] at h
      have hinv₁ := processItem_ok_inv target P i st st₁ hinv hpi
      have hres := ih (P ++ [i]) st₁ hinv₁ h
      rw [List.append_assoc, List.singleton_append] at hres
      exact hres

/-- When the outer loop returns early it returns a nonempty sub-multiset of
the items summing exactly to the target. -/
theorem runItems_err (target : Nat) (items P : List Nat) (st : DPState)
    (wr : List Nat) (hinv : DPInv target P st) (h : runItems target items st = .error wr) :
    wr.Sublist (P ++ items) ∧ wr.sum = target ∧ wr ≠ [] := by
  induction items generalizing P st with
  | nil =>
    simp only [runItems] at h
    exact Except.noConfusion h
  | cons i is ih =>
    simp only [runItems] at h
    cases hpi : processItem target st i with
    | error w =>
      rw [hpi] at h
      simp only [] at h
      injection h with h
      subst h
      obtain ⟨n, w₀, hmem, hs, hw⟩ := processEntries_err target i st.reach st w hpi
      obtain ⟨h1, h2⟩ := hinv.1 n w₀ hmem
      refine ⟨?_, ?_, ?_⟩
      · rw [hw]
        exact h1.append (List.Sublist.cons₂ i (List.nil_sublist is))
      · rw [hw, List.sum_append, h2]
        simp only [List.sum_cons, List.sum_nil]
        omega
      · rw [hw]
        exact List.append_ne_nil_of_right_ne_nil _ (by simp)
    | ok st₁ =>
      rw [hpi] at h
      simp only [] at h
      have hinv₁ := processItem_ok_inv target P i st st₁ hinv hpi
      have hres := ih (P ++ [i]) st₁ hinv₁ h
      rw [List.append_assoc, List.singleton_append] at hres
      exact hres

/-- C4 counterexample: with catalog NProcs [2, 3] and capacity 4 the call
provisions both sites, a total of 5 > 4, instead of the largest sum at
most the capacity (which would be the single site [3]): the claim's
"largest achievable sum ≤ capacity" fails on this input. -/
theorem startUp_overprovision_cex :
    startUpBestEffort [2, 3] 4 = [2, 3] ∧
    ¬ (startUpBestEffort [2, 3] 4).sum ≤ 4 ∧
    [3].Sublist [2, 3] ∧ ([3] : List Nat).sum ≤ 4 := by decide

/-- C4: start_up_best_effort provisions a sub-multiset of the catalog;
when the whole catalog fits within the capacity it is provisioned
entirely; otherwise — because subset_closest_to_sum is invoked with `gt`
left at its default True — the provisioned total is at least the capacity
and is the smallest total achievable by a nonempty sub-multiset that
reaches the capacity (an exact match is taken whenever one exists), the
opposite rounding to the claimed largest sum below the capacity. -/
theorem startUpBestEffort_C4 (catalog : List Nat) (capacity : Nat) :
    (startUpBestEffort catalog capacity).Sublist catalog ∧
    (catalog.sum ≤ capacity → startUpBestEffort catalog capacity = catalog) ∧
    (capacity < catalog.sum →
      capacity ≤ (startUpBestEffort catalog capacity).sum ∧
      ∀ sub : List Nat, sub.Sublist catalog → sub ≠ [] →
        capacity ≤ sub.sum → (startUpBestEffort catalog capacity).sum ≤ sub.sum) := by
  by_cases hempty : catalog = []
  · subst hempty
    refine ⟨List.nil_sublist _, fun _ => rfl, fun hlt => ?_⟩
    simp only [List.sum_nil] at hlt
    omega
  · have hstart : startUpBestEffort catalog capacity = subsetClosestToSum catalog capacity := by
      unfold startUpBestEffort
      rw [if_neg hempty]
    by_cases hsum : catalog.sum ≤ capacity
    · have hval : startUpBestEffort catalog capacity = catalog := by
        rw [hstart]
        unfold subsetClosestToSum
        rw [if_pos hsum]
      rw [hval]
      exact ⟨List.Sublist.refl _, fun _ => rfl, fun hlt => absurd hlt (by omega)⟩
    · have hinit := initDP_inv capacity
      cases hrun : runItems capacity catalog initDP with
      | error w =>
        have hres := runItems_err capacity catalog [] initDP w hinit hrun
        rw [List.nil_append] at hres
        have hval : startUpBestEffort catalog capacity = w := by
          rw [hstart]
          unfold subsetClosestToSum
          rw [if_neg hsum, hrun]
        rw [hval]
        exact ⟨hres.1, fun hc => absurd hc hsum, fun _ =>
          ⟨le_of_eq hres.2.1.symm,
           fun sub _ _ hcsub => by rw [hres.2.1]; exact hcsub⟩⟩
      | ok stf =>
        have hinv := runItems_ok_inv capacity catalog [] initDP stf hinit hrun
        rw [List.nil_append] at hinv
        obtain ⟨-, -, -, hclosest, hnoex⟩ := hinv
        cases hcf : stf.closest with
        | none =>
          exact absurd (hclosest.1 hcf catalog (List.Sublist.refl _)) hsum
        | some p =>
          obtain ⟨cs, cw⟩ := p
          obtain ⟨h1, h2, h3, h4⟩ := hclosest.2 cs cw hcf
          have hval : startUpBestEffort catalog capacity = cw := by
            rw [hstart]
            unfold subsetClosestToSum
            rw [if_neg hsum, hrun]
            simp only []
            rw [hcf]
          rw [hval]
          refine ⟨h1, fun hc => absurd hc hsum, fun hlt => ⟨by omega, ?_⟩⟩
          intro sub hsub hne hcsub
          by_cases hexact : sub.sum = capacity
          · exact absurd hexact (hnoex sub hsub hne)
          · have hgt : capacity < sub.sum := by omega
            have h5 := h4 sub hsub hgt
            omega

/-- Concrete run of the C4 theorem: on catalog [2, 3] with capacity 4 the
result is a sub-multiset of the catalog whose total reaches the capacity
and does not exceed the total of the full catalog, itself a nonempty
sub-multiset reaching the capacity. -/
theorem startUpBestEffort_C4_witness :
    (startUpBestEffort [2, 3] 4).Sublist [2, 3] ∧
    4 ≤ (startUpBestEffort [2, 3] 4).sum ∧
    (startUpBestEffort [2, 3] 4).sum ≤ ([2, 3] : List Nat).sum :=
  ⟨(startUpBestEffort_C4 [2, 3] 4).1,
   ((startUpBestEffort_C4 [2, 3] 4).2.2 (by decide)).1,
   ((startUpBestEffort_C4 [2, 3] 4).2.2 (by decide)).2 [2, 3]
     (List.Sublist.refl _) (by decide) (by decide)⟩

end OpenDC
